import Mathlib

/-!
Verification development for the `arnmatch` package: a shallow embedding of
the runtime matcher (`src/arnmatch/__init__.py`) and of the build-time
template compiler and indexer (`codegen/codegen.py`), together with theorems
about them.

Strings are modelled as `List Char` (`Str`).  Python's `re` module is
modelled by a small abstract-syntax type `RE` covering exactly the regex
fragment that `CodeGenerator.pattern_to_regex` emits (anchored sequences of
escaped literals, named groups with one of four character classes, and
greedy `.*` wildcards), with a backtracking matcher `matchRE` that mirrors
the engine's preference order (greedy classes try longest first, the lazy
`.+?` class shortest first).  Character classes are modelled on their ASCII
fragment (`\w` ↦ alphanumeric or underscore, `\d` ↦ ASCII digit) and `$` is
modelled as strict end of string.
-/

/-- Strings as explicit character lists, so that the splitting, escaping and
matching loops of the source can be embedded structurally. -/
abbrev Str := List Char

/-- Find the first occurrence of `sep`; return the text before it and the
rest after it (the skeleton shared by Python's `str.split` steps and by the
`[^}]+}` search of the template scanner). -/
def breakSep (sep : Char) : Str → Option (Str × Str)
  | [] => none
  | c :: rest =>
    if c = sep then some ([], rest)
    else (breakSep sep rest).map (fun p => (c :: p.1, p.2))

/-- Python's `s.split(sep, maxsplit)`: split at most `n` times. -/
def splitLimit (sep : Char) : Nat → Str → List Str
  | 0, s => [s]
  | n + 1, s =>
    match breakSep sep s with
    | some (a, b) => a :: splitLimit sep n b
    | none => [s]

/-- Python's unlimited `s.split(sep)`: `s.length` splits always suffice. -/
def splitAllSep (sep : Char) (s : Str) : List Str :=
  splitLimit sep s.length s

/-- If `p` is a prefix of the string, return the remainder. -/
def stripPre : Str → Str → Option Str
  | [], s => some s
  | _ :: _, [] => none
  | p :: ps, c :: rest => if p = c then stripPre ps rest else none

/-- Character classes occurring in generated regexes
(`CodeGenerator.PLACEHOLDER_PATTERNS` plus the `.+?` default). -/
inductive GClass where
  /-- `[\w-]+` — the `Partition` placeholder. -/
  | partitionCls
  /-- `[\w-]*` — the `Region` placeholder. -/
  | regionCls
  /-- `\d{12}` — the `Account` placeholder. -/
  | accountCls
  /-- `.+?` — every other placeholder (lazy, excludes newline). -/
  | anyLazy
deriving DecidableEq, Repr

/-- ASCII model of the `[\w-]` class. -/
def isWordDash (c : Char) : Bool := c.isAlphanum || c = '_' || c = '-'

/-- Does a candidate capture satisfy a class (its character set and length
constraints)? -/
def classOK : GClass → Str → Bool
  | .partitionCls, p => !p.isEmpty && p.all isWordDash
  | .regionCls, p => p.all isWordDash
  | .accountCls, p => p.length = 12 && p.all (·.isDigit)
  | .anyLazy, p => !p.isEmpty && p.all (· ≠ '\n')

/-- Candidate capture lengths for a class, in the engine's backtracking
order: greedy classes longest first, `\d{12}` fixed, `.+?` shortest
first. -/
def candLens : GClass → Str → List Nat
  | .partitionCls, s => (List.range (s.length + 1)).reverse
  | .regionCls, s => (List.range (s.length + 1)).reverse
  | .accountCls, _ => [12]
  | .anyLazy, s => List.range' 1 s.length

/-- Abstract syntax of the regex fragment emitted by `pattern_to_regex`:
the body between `^` and `$`. -/
inductive RE where
  /-- Escaped literal text: matches exactly the unescaped characters. -/
  | lit (l : Str)
  /-- `(?P<name>cls)` — a named capture group. -/
  | group (name : Str) (cls : GClass)
  /-- `.*` — a greedy unnamed wildcard (captures nothing). -/
  | star
deriving DecidableEq, Repr

/-- Anchored backtracking match of a regex body against a whole string,
returning the named captures in group-definition order (the model of
`regex.match(arn)` + `match.groupdict()` for the anchored `^...$` patterns
the generator emits). -/
def matchRE : List RE → Str → Option (List (Str × Str))
  | [], s => if s.isEmpty then some [] else none
  | .lit l :: rest, s =>
    match stripPre l s with
    | some rem => matchRE rest rem
    | none => none
  | .group n cls :: rest, s =>
    (candLens cls s).findSome? fun len =>
      if classOK cls (s.take len) then
        (matchRE rest (s.drop len)).map (fun cs => (n, s.take len) :: cs)
      else none
  | .star :: rest, s =>
    ((List.range (s.length + 1)).reverse).findSome? fun len => matchRE rest (s.drop len)

/-- Parsed ARN with structured data and captured groups
(the `ARN` dataclass). -/
structure ARN where
  aws_partition : Str
  aws_service : Str
  aws_region : Str
  aws_account : Str
  resource_type : Str
  resource_types : List Str
  attributes : List (Str × Str)
deriving DecidableEq, Repr

/-- The registry `ARN_PATTERNS`: service → ordered list of
(compiled pattern, type names).  The concrete table is generated data
(`arn_patterns.py`, built by `codegen.py`), so the embedding passes it as a
parameter; dict lookup is association-list lookup. -/
abbrev Registry := List (Str × List (List RE × List Str))

/-- Membership/indexing into the `ARN_PATTERNS` dict. -/
def lookupService (reg : Registry) (svc : Str) : Option (List (List RE × List Str)) :=
  (reg.find? (fun e => e.1 = svc)).map (·.2)

/-- Error message of `ARNError` raised for a malformed input. -/
def invalidMsg (arn : Str) : Str := "Invalid ARN format: ".data ++ arn

/-- Error message of `ARNError` raised for an unknown service. -/
def unknownMsg (service : Str) : Str := "Unknown service: ".data ++ service

/-- Error message of `ARNError` raised when no pattern matches. -/
def noMatchMsg (arn : Str) : Str := "No pattern matched ARN: ".data ++ arn

/-- The matching function `arnmatch` (src/arnmatch/__init__.py).  A raised
`ARNError` is modelled as `Except.error` carrying the message string.
`resource_type` models `type_names[0]` (generated type-name lists are
nonempty by construction of `get_type_names`). -/
def arnmatch (reg : Registry) (arn : Str) : Except Str ARN :=
  let parts := splitLimit ':' 5 arn
  if parts.length = 6 ∧ parts.headD [] = "arn".data then
    match lookupService reg (parts.getD 2 []) with
    | none => .error (unknownMsg (parts.getD 2 []))
    | some pats =>
      match pats.findSome? (fun p => (matchRE p.1 arn).map (fun caps => (p, caps))) with
      | some (p, caps) =>
        .ok { aws_partition := parts.getD 1 [], aws_service := parts.getD 2 [],
              aws_region := parts.getD 3 [], aws_account := parts.getD 4 [],
              resource_type := p.2.headD [], resource_types := p.2,
              attributes := caps }
      | none => .error (noMatchMsg arn)
  else .error (invalidMsg arn)

/-- `STANDARD_GROUPS`: capture names that are not resource-specific. -/
def STANDARD_GROUPS : List Str := ["Partition".data, "Region".data, "Account".data]

/-- The filtered, order-preserving attribute list both heuristics start
from. -/
def resource_groups (a : ARN) : List (Str × Str) :=
  a.attributes.filter (fun kv => decide (kv.1 ∉ STANDARD_GROUPS))

/-- Python's `key.endswith("Id")`. -/
def endsId (name : Str) : Bool := "Id".data.isSuffixOf name

/-- Python's `key.endswith("Name")`. -/
def endsName (name : Str) : Bool := "Name".data.isSuffixOf name

/-- `ARN.resource_id`: last group ending in `Id`, else last ending in
`Name`, else the last group's value, else empty. -/
def resource_id (a : ARN) : Str :=
  let gs := resource_groups a
  match gs.reverse.find? (fun kv => endsId kv.1) with
  | some kv => kv.2
  | none =>
    match gs.reverse.find? (fun kv => endsName kv.1) with
    | some kv => kv.2
    | none =>
      match gs.getLast? with
      | some kv => kv.2
      | none => []

/-- `ARN.resource_name`: last group ending in `Name`, else `resource_id`. -/
def resource_name (a : ARN) : Str :=
  let gs := resource_groups a
  match gs.reverse.find? (fun kv => endsName kv.1) with
  | some kv => kv.2
  | none => resource_id a

/-- The generated `AWS_SDK_SERVICES` table: service → SDK client names. -/
abbrev SdkServices := List (Str × List Str)

/-- The generated `AWS_SDK_RESOURCE_OVERRIDES` table:
service → ordered (resource-type pattern, client) pairs. -/
abbrev SdkOverrides := List (Str × List (Str × Str))

/-- `ARN.aws_sdk_services`: `AWS_SDK_SERVICES.get(service, [])`. -/
def aws_sdk_services (tbl : SdkServices) (a : ARN) : List Str :=
  ((tbl.find? (fun e => e.1 = a.aws_service)).map (·.2)).getD []

/-- Does one override row `(pattern, client)` apply to this resource type?
(`resource_type == pattern or resource_type.startswith(pattern + "/")`). -/
def overrideHits (resource_type : Str) (pc : Str × Str) : Bool :=
  resource_type = pc.1 || (pc.1 ++ "/".data).isPrefixOf resource_type

/-- `ARN.aws_sdk_service`: zero clients → `None`; one client → it; several
clients → first applicable row of the service's override list, and `None`
when the service has no override list or no row applies. -/
def aws_sdk_service (tbl : SdkServices) (ovr : SdkOverrides) (a : ARN) : Option Str :=
  match aws_sdk_services tbl a with
  | [] => none
  | [c] => some c
  | _ :: _ :: _ =>
    match ovr.find? (fun e => e.1 = a.aws_service) with
    | some entry =>
      match entry.2.find? (overrideHits a.resource_type) with
      | some pc => some pc.2
      | none => none
    | none => none

/-! ### Claim C8 — resource id / name heuristics -/

/-- Specification-side rendering of the `resource_id` heuristic: the value
of the last attribute (in declaration order) whose name ends in `Id`, else
the last whose name ends in `Name`, else the last attribute's value, else
the empty string — stated without the standard-group filter, to be compared
with the implementation on attribute lists free of standard groups. -/
def resourceIdSpec (attrs : List (Str × Str)) : Str :=
  match (attrs.filter (fun kv => endsId kv.1)).getLast? with
  | some kv => kv.2
  | none =>
    match (attrs.filter (fun kv => endsName kv.1)).getLast? with
    | some kv => kv.2
    | none =>
      match attrs.getLast? with
      | some kv => kv.2
      | none => []

/-- Specification-side rendering of the `resource_name` heuristic. -/
def resourceNameSpec (attrs : List (Str × Str)) : Str :=
  match (attrs.filter (fun kv => endsName kv.1)).getLast? with
  | some kv => kv.2
  | none => resourceIdSpec attrs

/-- Scanning a list from the end for the first hit is taking the last
element of the filtered list. -/
theorem find?_reverse_eq_getLast?_filter (l : List α) (p : α → Bool) :
    l.reverse.find? p = (l.filter p).getLast? := by
  induction l with
  | nil => simp
  | cons a t ih =>
    rw [List.reverse_cons, List.find?_append, ih, List.filter_cons]
    by_cases hp : p a
    · simp only [hp, if_pos, List.getLast?_cons]
      cases hfl : (t.filter p).getLast? <;> simp [hp]
    · simp [hp]

/-- C8: for every ARN whose attribute sequence excludes the standard
`Partition`/`Region`/`Account` groups, `resource_id` is the value of the
first attribute scanning from the end whose name ends in `Id`, else the
first from the end ending in `Name`, else the last attribute's value, else
empty; and `resource_name` is the first from the end ending in `Name`,
otherwise `resource_id`. -/
theorem resource_heuristics_spec (a : ARN)
    (h : ∀ kv ∈ a.attributes, kv.1 ∉ STANDARD_GROUPS) :
    resource_id a = resourceIdSpec a.attributes ∧
    resource_name a = resourceNameSpec a.attributes := by
  have hg : resource_groups a = a.attributes := by
    rw [resource_groups, List.filter_eq_self]
    intro kv hkv
    simpa using h kv hkv
  constructor
  · rw [resource_id, resourceIdSpec, hg,
      find?_reverse_eq_getLast?_filter, find?_reverse_eq_getLast?_filter]
  · rw [resource_name, resourceNameSpec, hg, find?_reverse_eq_getLast?_filter,
      resource_id, resourceIdSpec, hg,
      find?_reverse_eq_getLast?_filter, find?_reverse_eq_getLast?_filter]

/-- Concrete ARN used to witness C8. -/
def c8arn : ARN :=
  { aws_partition := "aws".data, aws_service := "cloudformation".data,
    aws_region := "us-east-1".data, aws_account := "012345678901".data,
    resource_type := "stack".data, resource_types := ["stack".data],
    attributes := [("StackName".data, "stack1".data), ("Id".data, "abc".data)] }

/-- Witness for C8 at a concrete ARN with both a `Name` and an `Id`
attribute. -/
theorem resource_heuristics_spec_witness :
    (resource_id c8arn = resourceIdSpec c8arn.attributes ∧
      resource_name c8arn = resourceNameSpec c8arn.attributes) ∧
    resource_id c8arn = "abc".data ∧ resource_name c8arn = "stack1".data :=
  ⟨resource_heuristics_spec c8arn (by decide), by decide, by decide⟩

/-! ### Claim C5 — SDK client resolution -/

/-- SDK tables for the C5 counterexample: a service with two clients whose
override list does not cover the resource type. -/
def c5tbl : SdkServices := [("elasticloadbalancing".data, ["elb".data, "elbv2".data])]

/-- Override list for the C5 counterexample. -/
def c5ovr : SdkOverrides := [("elasticloadbalancing".data, [("targetgroup".data, "elbv2".data)])]

/-- ARN for the C5 counterexample. -/
def c5arn : ARN :=
  { aws_partition := "aws".data, aws_service := "elasticloadbalancing".data,
    aws_region := "us-east-1".data, aws_account := "012345678901".data,
    resource_type := "listener".data, resource_types := ["listener".data],
    attributes := [] }

/-- C5 counterexample: a service with two registered clients and an override
list in which no row applies to the resource type resolves to `none` (the
unresolved value).  The claim predicted "the service's declared default
client"; the code has no notion of a default client and returns `None`. -/
theorem aws_sdk_service_no_default_cex :
    (aws_sdk_services c5tbl c5arn).length = 2 ∧
    (∀ pc ∈ [("targetgroup".data, "elbv2".data)], overrideHits c5arn.resource_type pc = false) ∧
    c5ovr.find? (fun e => e.1 = c5arn.aws_service) =
      some ("elasticloadbalancing".data, [("targetgroup".data, "elbv2".data)]) ∧
    aws_sdk_service c5tbl c5ovr c5arn = none := by decide

/-- C5 as amended: zero clients → unresolved (`none`); one client → that
client; several clients → the client of the first applicable override row,
and `none` (not a default client) when the service has no override list or
no row applies. -/
theorem aws_sdk_service_cases (tbl : SdkServices) (ovr : SdkOverrides) (a : ARN) :
    (aws_sdk_services tbl a = [] → aws_sdk_service tbl ovr a = none) ∧
    (∀ c, aws_sdk_services tbl a = [c] → aws_sdk_service tbl ovr a = some c) ∧
    (2 ≤ (aws_sdk_services tbl a).length →
      ((∀ entry pc, ovr.find? (fun e => e.1 = a.aws_service) = some entry →
          entry.2.find? (overrideHits a.resource_type) = some pc →
          aws_sdk_service tbl ovr a = some pc.2) ∧
       (∀ entry, ovr.find? (fun e => e.1 = a.aws_service) = some entry →
          entry.2.find? (overrideHits a.resource_type) = none →
          aws_sdk_service tbl ovr a = none) ∧
       (ovr.find? (fun e => e.1 = a.aws_service) = none →
          aws_sdk_service tbl ovr a = none))) := by
  refine ⟨?_, ?_, ?_⟩
  · intro h
    simp [aws_sdk_service, h]
  · intro c h
    simp [aws_sdk_service, h]
  · intro h
    rcases hcl : aws_sdk_services tbl a with _ | ⟨c1, _ | ⟨c2, cs⟩⟩
    · rw [hcl] at h; simp at h
    · rw [hcl] at h; simp at h
    · refine ⟨?_, ?_, ?_⟩
      · intro entry pc h1 h2
        simp [aws_sdk_service, hcl, h1, h2]
      · intro entry h1 h2
        simp [aws_sdk_service, hcl, h1, h2]
      · intro h1
        simp [aws_sdk_service, hcl, h1]

/-- Witness for the amended C5: the multi-client service resolves through
its first applicable override row. -/
theorem aws_sdk_service_cases_witness :
    aws_sdk_service c5tbl c5ovr
      { c5arn with resource_type := "targetgroup/tg1".data } = some "elbv2".data :=
  ((aws_sdk_service_cases c5tbl c5ovr _).2.2 (by decide)).1
    ("elasticloadbalancing".data, [("targetgroup".data, "elbv2".data)])
    ("targetgroup".data, "elbv2".data) (by decide) (by decide)

/-! ### Claim C2 — the three failure modes of `arnmatch` -/

/-- C2: `arnmatch` fails in exactly three cases and otherwise returns an
ARN: malformed input (not 6 colon fields starting with `arn`), unknown
service, and no pattern matched; the three error results are pairwise
distinct (the code raises a single `ARNError` class, whose three message
families never coincide), and no failure is silently defaulted. -/
theorem arnmatch_trichotomy (reg : Registry) (arn : Str) :
    (¬ ((splitLimit ':' 5 arn).length = 6 ∧
        (splitLimit ':' 5 arn).headD [] = "arn".data) →
      arnmatch reg arn = .error (invalidMsg arn)) ∧
    ((splitLimit ':' 5 arn).length = 6 →
      (splitLimit ':' 5 arn).headD [] = "arn".data →
      lookupService reg ((splitLimit ':' 5 arn).getD 2 []) = none →
      arnmatch reg arn = .error (unknownMsg ((splitLimit ':' 5 arn).getD 2 []))) ∧
    ((splitLimit ':' 5 arn).length = 6 →
      (splitLimit ':' 5 arn).headD [] = "arn".data →
      ∀ pats, lookupService reg ((splitLimit ':' 5 arn).getD 2 []) = some pats →
      (∀ p ∈ pats, matchRE p.1 arn = none) →
      arnmatch reg arn = .error (noMatchMsg arn)) ∧
    ((splitLimit ':' 5 arn).length = 6 →
      (splitLimit ':' 5 arn).headD [] = "arn".data →
      ∀ pats, lookupService reg ((splitLimit ':' 5 arn).getD 2 []) = some pats →
      ∀ p ∈ pats, matchRE p.1 arn ≠ none →
      ∃ res, arnmatch reg arn = .ok res) ∧
    (∀ x y : Str, invalidMsg x ≠ unknownMsg y) ∧
    (∀ x y : Str, invalidMsg x ≠ noMatchMsg y) ∧
    (∀ x y : Str, unknownMsg x ≠ noMatchMsg y) := by
  refine ⟨?_, ?_, ?_, ?_, ?_, ?_, ?_⟩
  · intro h
    simp only [arnmatch]
    rw [if_neg h]
  · intro h1 h2 h3
    simp only [arnmatch]
    rw [if_pos ⟨h1, h2⟩, h3]
  · intro h1 h2 pats h3 h4
    simp only [arnmatch]
    rw [if_pos ⟨h1, h2⟩, h3]
    dsimp only
    have hn : pats.findSome?
        (fun p => (matchRE p.1 arn).map (fun caps => (p, caps))) = none := by
      rw [List.findSome?_eq_none_iff]
      intro p hp
      rw [h4 p hp]
      rfl
    rw [hn]
  · intro h1 h2 pats h3 p hp hm
    simp only [arnmatch]
    rw [if_pos ⟨h1, h2⟩, h3]
    dsimp only
    rcases hfs : pats.findSome?
        (fun q => (matchRE q.1 arn).map (fun caps => (q, caps))) with _ | ⟨q, caps⟩
    · rw [List.findSome?_eq_none_iff] at hfs
      have := hfs p hp
      rcases hmm : matchRE p.1 arn with _ | caps
      · exact absurd hmm hm
      · rw [hmm] at this
        simp at this
    · rw [hfs]
      exact ⟨_, rfl⟩
  · intro x y he
    have h2 : ('I' : Char) = 'U' := congrArg (fun l => l.headD ' ') he
    simp at h2
  · intro x y he
    have h2 : ('I' : Char) = 'N' := congrArg (fun l => l.headD ' ') he
    simp at h2
  · intro x y he
    have h2 : ('U' : Char) = 'N' := congrArg (fun l => l.headD ' ') he
    simp at h2

/-- Registry used by the C2 witness. -/
def c2reg : Registry :=
  [("s3".data, [([RE.lit "arn:aws:s3:::".data, RE.group "BucketName".data .anyLazy],
     ["bucket".data])])]

/-- Witness for C2: the malformed-input branch at a concrete input. -/
theorem arnmatch_trichotomy_witness :
    arnmatch c2reg "not-an-arn".data = .error (invalidMsg "not-an-arn".data) :=
  (arnmatch_trichotomy c2reg "not-an-arn".data).1 (by decide)

/-! ### Claim C1 — first-match semantics of `arnmatch` -/

/-- A linear scan returns the image of the first element on which the
function fires. -/
theorem findSome?_first {α β : Type} {l : List α} {f : α → Option β} {b : β}
    {i : Nat} (hi : i < l.length)
    (hs : f (l.get ⟨i, hi⟩) = some b)
    (hf : ∀ j (hj : j < l.length), j < i → f (l.get ⟨j, hj⟩) = none) :
    l.findSome? f = some b := by
  induction l generalizing i with
  | nil => simp at hi
  | cons a t ih =>
    cases i with
    | zero =>
      rw [List.findSome?_cons]
      simp only [List.get] at hs
      rw [hs]
    | succ n =>
      have ha : f a = none := hf 0 (by omega) (by omega)
      rw [List.findSome?_cons, ha]
      have hn : n < t.length := by simp at hi; omega
      exact ih hn hs (fun j hj hlt => hf (j + 1) (by simpa using Nat.succ_lt_succ hj)
        (Nat.succ_lt_succ hlt))

/-- C1: for a well-formed identifier whose service is in the registry,
`arnmatch` tries that service's patterns in registry order against the full
identifier and, at the first success, returns an ARN whose
`resource_type` is the pattern's first type name, whose `resource_types`
is the full type-name list, and whose attributes are exactly the match's
named captures. -/
theorem arnmatch_first_success (reg : Registry) (arn : Str)
    (hlen : (splitLimit ':' 5 arn).length = 6)
    (hhead : (splitLimit ':' 5 arn).headD [] = "arn".data)
    (pats : List (List RE × List Str))
    (hlook : lookupService reg ((splitLimit ':' 5 arn).getD 2 []) = some pats)
    (i : Nat) (hi : i < pats.length) (caps : List (Str × Str))
    (hmatch : matchRE (pats.get ⟨i, hi⟩).1 arn = some caps)
    (hbefore : ∀ j (hj : j < pats.length), j < i → matchRE (pats.get ⟨j, hj⟩).1 arn = none) :
    arnmatch reg arn = .ok
      { aws_partition := (splitLimit ':' 5 arn).getD 1 [],
        aws_service := (splitLimit ':' 5 arn).getD 2 [],
        aws_region := (splitLimit ':' 5 arn).getD 3 [],
        aws_account := (splitLimit ':' 5 arn).getD 4 [],
        resource_type := (pats.get ⟨i, hi⟩).2.headD [],
        resource_types := (pats.get ⟨i, hi⟩).2,
        attributes := caps } := by
  have hfs : pats.findSome? (fun p => (matchRE p.1 arn).map (fun cs => (p, cs))) =
      some (pats.get ⟨i, hi⟩, caps) := by
    refine findSome?_first hi ?_ ?_
    · rw [hmatch]; rfl
    · intro j hj hlt
      rw [hbefore j hj hlt]; rfl
  simp only [arnmatch]
  rw [if_pos ⟨hlen, hhead⟩, hlook]
  dsimp only
  rw [hfs]

/-- Registry used by the C1 witness: two `ec2` patterns, the first of which
fails on the witness identifier while the second matches. -/
def c1reg : Registry :=
  [("ec2".data,
    [([RE.lit "arn:aws:ec2:us-east-1:123456789012:volume/".data,
       RE.group "VolumeId".data .anyLazy], ["volume".data]),
     ([RE.lit "arn:aws:ec2:us-east-1:123456789012:instance/".data,
       RE.group "InstanceId".data .anyLazy], ["instance".data])])]

/-- Identifier used by the C1 witness. -/
def c1arn : Str := "arn:aws:ec2:us-east-1:123456789012:instance/i-abc".data

/-- Witness for C1: the second registered pattern is the first success. -/
theorem arnmatch_first_success_witness :
    arnmatch c1reg c1arn = .ok
      { aws_partition := (splitLimit ':' 5 c1arn).getD 1 [],
        aws_service := (splitLimit ':' 5 c1arn).getD 2 [],
        aws_region := (splitLimit ':' 5 c1arn).getD 3 [],
        aws_account := (splitLimit ':' 5 c1arn).getD 4 [],
        resource_type :=
          (((c1reg.get ⟨0, by decide⟩).2).get ⟨1, by decide⟩).2.headD [],
        resource_types := (((c1reg.get ⟨0, by decide⟩).2).get ⟨1, by decide⟩).2,
        attributes := [("InstanceId".data, "i-abc".data)] } :=
  arnmatch_first_success c1reg c1arn (by decide) (by decide)
    (c1reg.get ⟨0, by decide⟩).2 (by decide) 1 (by decide)
    [("InstanceId".data, "i-abc".data)] (by decide)
    (fun j hj hlt => by
      have hj0 : j = 0 := by omega
      subst hj0
      exact (by decide :
        matchRE ((c1reg.get ⟨0, by decide⟩).2.get ⟨0, by decide⟩).1 c1arn = none))

/-! ### Claim C9 — deduplication of template records (`ARNIndexer.deduplicate`) -/

/-- A raw template record as processed by `ARNIndexer` (the dict keys used
by `deduplicate`). -/
structure ResourceRec where
  service : Str
  resource_type : Str
  arn_pattern : Str
  arn_service : Str
deriving DecidableEq, Repr

/-- `ARNIndexer.extract_arn_service`: third colon-separated field of the
template, or empty. -/
def extract_arn_service (arn_pattern : Str) : Str :=
  let parts := splitAllSep ':' arn_pattern
  if 3 ≤ parts.length then parts.getD 2 [] else []

/-- One step of the `by_arn` dict construction: append the record to its
template's group, or open a new group at the end (Python dicts preserve
insertion order). -/
def addRec (acc : List (Str × List ResourceRec)) (r : ResourceRec) :
    List (Str × List ResourceRec) :=
  match acc with
  | [] => [(r.arn_pattern, [r])]
  | (k, g) :: t =>
    if k = r.arn_pattern then (k, g ++ [r]) :: t else (k, g) :: addRec t r

/-- The `by_arn` dict of `deduplicate`, as an insertion-ordered association
list. -/
def groupByTemplate (rs : List ResourceRec) : List (Str × List ResourceRec) :=
  rs.foldl addRec []

/-- The selection made for one group: `matches[0] if matches else group[0]`
(groups built by `groupByTemplate` are never empty, so the default is
unreachable). -/
def pickRec (g : List ResourceRec) : ResourceRec :=
  match g.filter (fun r => r.arn_service = r.service) with
  | m :: _ => m
  | [] => g.headD ⟨[], [], [], []⟩

/-- `ARNIndexer.deduplicate`. -/
def deduplicate (rs : List ResourceRec) : List ResourceRec :=
  (groupByTemplate rs).map (fun e => pickRec e.2)

/-- Keys of `addRec acc r`: unchanged when the template is present,
otherwise the new key is appended. -/
theorem addRec_keys (acc : List (Str × List ResourceRec)) (r : ResourceRec) :
    (addRec acc r).map (·.1) =
      if r.arn_pattern ∈ acc.map (·.1) then acc.map (·.1)
      else acc.map (·.1) ++ [r.arn_pattern] := by
  induction acc with
  | nil => simp [addRec]
  | cons kg t ih =>
    obtain ⟨k, g⟩ := kg
    by_cases hk : k = r.arn_pattern
    · subst hk
      simp [addRec]
    · rw [addRec]
      rw [if_neg hk]
      by_cases hmem : r.arn_pattern ∈ t.map (·.1)
      · simp [hmem, ih, Ne.symm hk]
      · simp [hmem, ih, Ne.symm hk]

/-- Case analysis of membership in `addRec acc r` (for accumulators with
no duplicate keys). -/
theorem addRec_mem {acc : List (Str × List ResourceRec)} {r : ResourceRec}
    {kg : Str × List ResourceRec} (hnd : (acc.map (·.1)).Nodup)
    (h : kg ∈ addRec acc r) :
    (kg ∈ acc ∧ kg.1 ≠ r.arn_pattern) ∨
    (∃ g, (kg.1, g) ∈ acc ∧ kg.1 = r.arn_pattern ∧ kg.2 = g ++ [r]) ∨
    (kg = (r.arn_pattern, [r]) ∧ r.arn_pattern ∉ acc.map (·.1)) := by
  obtain ⟨k1, g1⟩ := kg
  induction acc with
  | nil =>
    simp [addRec] at h
    right; right
    simp [h]
  | cons kg0 t ih =>
    obtain ⟨k, g⟩ := kg0
    have hndt : (t.map (·.1)).Nodup := (List.nodup_cons.mp hnd).2
    have hknot : k ∉ t.map (·.1) := (List.nodup_cons.mp hnd).1
    by_cases hk : k = r.arn_pattern
    · subst hk
      rw [addRec, if_pos rfl] at h
      rcases List.mem_cons.mp h with h1 | h1
      · simp only [Prod.mk.injEq] at h1
        obtain ⟨he1, he2⟩ := h1
        subst he1
        subst he2
        right; left
        exact ⟨g, List.mem_cons_self _ _, rfl, rfl⟩
      · -- unchanged tail entry; its key differs from the head key by nodup
        have hne : k1 ≠ r.arn_pattern := by
          intro hcontra
          apply hknot
          rw [← hcontra]
          exact List.mem_map.mpr ⟨(k1, g1), h1, rfl⟩
        exact Or.inl ⟨List.mem_cons_of_mem _ h1, hne⟩
    · rw [addRec, if_neg hk] at h
      rcases List.mem_cons.mp h with h1 | h1
      · simp only [Prod.mk.injEq] at h1
        obtain ⟨he1, he2⟩ := h1
        subst he1
        subst he2
        exact Or.inl ⟨List.mem_cons_self _ _, hk⟩
      · rcases ih hndt h1 with h2 | h2 | h2
        · exact Or.inl ⟨List.mem_cons_of_mem _ h2.1, h2.2⟩
        · obtain ⟨g0, hg0, he, hv⟩ := h2
          exact Or.inr (Or.inl ⟨g0, List.mem_cons_of_mem _ hg0, he, hv⟩)
        · refine Or.inr (Or.inr ⟨h2.1, ?_⟩)
          simp only [List.map_cons, List.mem_cons]
          rintro (hc | hc)
          · exact hk hc.symm
          · exact h2.2 hc

/-- Invariant of the `by_arn` dict while scanning the input: keys are
distinct, each group is the filter of the records seen so far by its key,
and the keys are exactly the templates seen so far. -/
def describesGroups (acc : List (Str × List ResourceRec)) (pre : List ResourceRec) : Prop :=
  (acc.map (·.1)).Nodup ∧
  (∀ kg ∈ acc, kg.2 = pre.filter (fun r => r.arn_pattern = kg.1)) ∧
  (∀ k, k ∈ acc.map (·.1) ↔ k ∈ pre.map (·.arn_pattern))

/-- `addRec` preserves the grouping invariant. -/
theorem addRec_invariant {acc pre} (hinv : describesGroups acc pre) (r : ResourceRec) :
    describesGroups (addRec acc r) (pre ++ [r]) := by
  obtain ⟨hnd, hgrp, hkey⟩ := hinv
  refine ⟨?_, ?_, ?_⟩
  · rw [addRec_keys]
    split
    · exact hnd
    · next hnotmem =>
      rw [List.nodup_append]
      exact ⟨hnd, List.nodup_singleton _, by simpa using hnotmem⟩
  · intro kg hkg
    rcases addRec_mem hnd hkg with h2 | h2 | h2
    · have hne : ¬ (r.arn_pattern = kg.1) := fun hc => h2.2 hc.symm
      rw [hgrp kg h2.1, List.filter_append]
      simp [List.filter, hne]
    · obtain ⟨g0, hg0, he, hv⟩ := h2
      have hg0e : g0 = pre.filter (fun r0 => r0.arn_pattern = kg.1) :=
        hgrp (kg.1, g0) hg0
      rw [hv, hg0e, List.filter_append]
      simp [List.filter, he]
    · obtain ⟨he, hnotmem⟩ := h2
      rw [he]
      have hpre : pre.filter (fun r0 => r0.arn_pattern = r.arn_pattern) = [] := by
        rw [List.filter_eq_nil_iff]
        intro a ha
        simp only [decide_eq_true_eq]
        intro hc
        exact hnotmem ((hkey r.arn_pattern).mpr (List.mem_map.mpr ⟨a, ha, hc⟩))
      simp only [List.filter_append, hpre, List.nil_append]
      simp [List.filter]
  · intro k
    rw [addRec_keys]
    by_cases hmem : r.arn_pattern ∈ acc.map (·.1)
    · rw [if_pos hmem, hkey]
      simp only [List.map_append, List.mem_append, List.map_cons, List.map_nil]
      constructor
      · exact fun h => Or.inl h
      · rintro (h | h)
        · exact h
        · simp at h
          rw [h]
          exact (hkey _).mp hmem
    · rw [if_neg hmem]
      simp only [List.mem_append, List.mem_singleton, hkey, List.map_append]
      simp

/-- The grouping invariant holds of the finished `by_arn` dict. -/
theorem groupByTemplate_spec (rs : List ResourceRec) :
    describesGroups (groupByTemplate rs) rs := by
  suffices h : ∀ (todo : List ResourceRec) (acc pre), describesGroups acc pre →
      describesGroups (todo.foldl addRec acc) (pre ++ todo) by
    have := h rs [] [] ⟨by simp, by simp, by simp⟩
    simpa [groupByTemplate] using this
  intro todo
  induction todo with
  | nil => intro acc pre h; simpa using h
  | cons r rest ih =>
    intro acc pre h
    have h2 := ih (addRec acc r) (pre ++ [r]) (addRec_invariant h r)
    simpa using h2

/-- A linear scan for the first hit is the head of the filtered list. -/
theorem find?_eq_head?_filter (l : List α) (p : α → Bool) :
    l.find? p = (l.filter p).head? := by
  induction l with
  | nil => simp
  | cons a t ih =>
    by_cases hp : p a
    · rw [List.find?_cons_of_pos _ hp, List.filter_cons_of_pos hp]
      simp
    · rw [List.find?_cons_of_neg _ hp, List.filter_cons_of_neg hp, ih]

/-- `find?` only depends on the predicate's values on the list. -/
theorem find?_congr_of_mem {l : List α} {p q : α → Bool}
    (h : ∀ x ∈ l, p x = q x) : l.find? p = l.find? q := by
  induction l with
  | nil => simp
  | cons a t ih =>
    have ha := h a (List.mem_cons_self _ _)
    by_cases hp : p a
    · rw [List.find?_cons_of_pos _ hp, List.find?_cons_of_pos _ (ha ▸ hp)]
    · rw [List.find?_cons_of_neg _ hp, List.find?_cons_of_neg _ (ha ▸ hp),
        ih (fun x hx => h x (List.mem_cons_of_mem _ hx))]

/-- When the authoritative scan hits, `pickRec` returns its first hit. -/
theorem pickRec_of_find?_some {g : List ResourceRec} {m : ResourceRec}
    (hm : g.find? (fun r => r.arn_service = r.service) = some m) :
    pickRec g = m := by
  rw [find?_eq_head?_filter] at hm
  rcases hf : g.filter (fun r => r.arn_service = r.service) with _ | ⟨m0, rest⟩
  · rw [hf] at hm; simp at hm
  · rw [hf] at hm
    simp at hm
    rw [pickRec, hf, hm]

/-- When the authoritative scan misses, `pickRec` keeps the group's first
record. -/
theorem pickRec_of_find?_none {g : List ResourceRec}
    (hm : g.find? (fun r => r.arn_service = r.service) = none) (hne : g ≠ []) :
    g.head? = some (pickRec g) := by
  rw [find?_eq_head?_filter] at hm
  rcases hf : g.filter (fun r => r.arn_service = r.service) with _ | ⟨m0, rest⟩
  · have hp : pickRec g = g.headD ⟨[], [], [], []⟩ := by rw [pickRec, hf]
    rw [hp]
    rcases g with _ | ⟨a, t⟩
    · exact absurd rfl hne
    · simp
  · rw [hf] at hm; simp at hm

/-- Every element picked from a nonempty group belongs to it. -/
theorem pickRec_mem {g : List ResourceRec} (hne : g ≠ []) : pickRec g ∈ g := by
  rcases hf : g.filter (fun r => r.arn_service = r.service) with _ | ⟨m0, rest⟩
  · have hp : pickRec g = g.headD ⟨[], [], [], []⟩ := by rw [pickRec, hf]
    rw [hp]
    rcases g with _ | ⟨a, t⟩
    · exact absurd rfl hne
    · simp
  · have hp : pickRec g = m0 := by rw [pickRec, hf]
    rw [hp]
    refine List.mem_of_mem_filter (p := fun r => r.arn_service = r.service) ?_
    rw [hf]
    exact List.mem_cons_self m0 rest

/-- C9: deduplication keeps exactly one record per distinct template; when
several records share a template, the kept one is the first whose declared
owning service equals the service parsed from the template itself, and
otherwise the first record of the group in input order. -/
theorem deduplicate_spec (rs : List ResourceRec)
    (h : ∀ r ∈ rs, r.arn_service = extract_arn_service r.arn_pattern) :
    ((deduplicate rs).map (·.arn_pattern)).Nodup ∧
    (∀ t, t ∈ (deduplicate rs).map (·.arn_pattern) ↔ t ∈ rs.map (·.arn_pattern)) ∧
    (∀ r' ∈ deduplicate rs,
      (rs.filter (fun x => x.arn_pattern = r'.arn_pattern)).find?
          (fun x => x.service = extract_arn_service r'.arn_pattern) = some r' ∨
      ((rs.filter (fun x => x.arn_pattern = r'.arn_pattern)).find?
          (fun x => x.service = extract_arn_service r'.arn_pattern) = none ∧
        (rs.filter (fun x => x.arn_pattern = r'.arn_pattern)).head? = some r')) := by
  obtain ⟨hnd, hgrp, hkey⟩ := groupByTemplate_spec rs
  have hgne : ∀ kg ∈ groupByTemplate rs, kg.2 ≠ [] := by
    intro kg hkg
    have hk1 : kg.1 ∈ (groupByTemplate rs).map (·.1) := List.mem_map.mpr ⟨kg, hkg, rfl⟩
    have := (hkey kg.1).mp hk1
    obtain ⟨x, hx, hxe⟩ := List.mem_map.mp this
    rw [hgrp kg hkg]
    intro hnil
    rw [List.filter_eq_nil_iff] at hnil
    exact hnil x hx (by simp [hxe])
  have hpat : ∀ kg ∈ groupByTemplate rs, (pickRec kg.2).arn_pattern = kg.1 := by
    intro kg hkg
    have hmem : pickRec kg.2 ∈ kg.2 := pickRec_mem (hgne kg hkg)
    have hmem2 : pickRec kg.2 ∈ rs.filter (fun r => r.arn_pattern = kg.1) := by
      rw [← hgrp kg hkg]
      exact hmem
    have := (List.mem_filter.mp hmem2).2
    simpa using this
  have hmap : (deduplicate rs).map (·.arn_pattern) = (groupByTemplate rs).map (·.1) := by
    rw [deduplicate, List.map_map]
    exact List.map_congr_left hpat
  refine ⟨hmap ▸ hnd, fun t => hmap ▸ hkey t, ?_⟩
  intro r' hr'
  obtain ⟨kg, hkg, hpick⟩ := List.mem_map.mp hr'
  have hgeq : kg.2 = rs.filter (fun x => x.arn_pattern = r'.arn_pattern) := by
    rw [hgrp kg hkg, ← hpick, hpat kg hkg]
  have hcongr : (rs.filter (fun x => x.arn_pattern = r'.arn_pattern)).find?
      (fun x => x.service = extract_arn_service r'.arn_pattern) =
      (rs.filter (fun x => x.arn_pattern = r'.arn_pattern)).find?
      (fun x => x.arn_service = x.service) := by
    refine find?_congr_of_mem ?_
    intro x hx
    have hx1 := List.mem_filter.mp hx
    have hxp : x.arn_pattern = r'.arn_pattern := by simpa using hx1.2
    have hxs : x.arn_service = extract_arn_service r'.arn_pattern := by
      rw [h x hx1.1, hxp]
    rw [hxs]
    by_cases he : x.service = extract_arn_service r'.arn_pattern
    · simp [he]
    · simp [he]
      exact fun hc => he hc.symm
  rw [hcongr, ← hgeq]
  rcases hfind : kg.2.find? (fun x => x.arn_service = x.service) with _ | m
  · right
    refine ⟨hfind, ?_⟩
    rw [← hpick]
    exact pickRec_of_find?_none hfind (hgne kg hkg)
  · left
    rw [← hpick, pickRec_of_find?_some hfind]
    exact hfind

/-- Records for the C9 witness: two records sharing one template, the
second of which declares the template's own service. -/
def c9rs : List ResourceRec :=
  [{ service := "ec2".data, resource_type := "bucket-copy".data,
     arn_pattern := "arn:$\x7bPartition\x7d:s3:::$\x7bBucketName\x7d".data,
     arn_service := "s3".data },
   { service := "s3".data, resource_type := "bucket".data,
     arn_pattern := "arn:$\x7bPartition\x7d:s3:::$\x7bBucketName\x7d".data,
     arn_service := "s3".data }]

/-- Witness for C9 at a concrete duplicated-template input. -/
theorem deduplicate_spec_witness :
    ((deduplicate c9rs).map (·.arn_pattern)).Nodup ∧
    (∀ t, t ∈ (deduplicate c9rs).map (·.arn_pattern) ↔ t ∈ c9rs.map (·.arn_pattern)) ∧
    (∀ r' ∈ deduplicate c9rs,
      (c9rs.filter (fun x => x.arn_pattern = r'.arn_pattern)).find?
          (fun x => x.service = extract_arn_service r'.arn_pattern) = some r' ∨
      ((c9rs.filter (fun x => x.arn_pattern = r'.arn_pattern)).find?
          (fun x => x.service = extract_arn_service r'.arn_pattern) = none ∧
        (c9rs.filter (fun x => x.arn_pattern = r'.arn_pattern)).head? = some r')) :=
  deduplicate_spec c9rs (by decide)

/-! ### Claim C3 — specificity ordering (`ARNIndexer.sort_key` /
`sort_by_specificity`) -/

/-- Splitting at a separator strictly shrinks the remainder. -/
theorem breakSep_len {sep : Char} {s a b : Str} (h : breakSep sep s = some (a, b)) :
    b.length < s.length := by
  induction s generalizing a b with
  | nil => simp [breakSep] at h
  | cons c rest ih =>
    rw [breakSep] at h
    split at h
    · simp at h
      obtain ⟨h1, h2⟩ := h
      subst h2
      simp
    · rw [Option.map_eq_some'] at h
      obtain ⟨⟨a0, b0⟩, h1, h2⟩ := h
      have := ih h1
      have hb : b = b0 := by
        have := congrArg Prod.snd h2
        simpa using this.symm
      subst hb
      simp
      omega

/-- The scanner of `re.split(r"(\$\x7b[^}]+\})", part)` from
`ARNIndexer.parse_segments`: alternating literal chunks and `$\x7b...\x7d`
variable spans (chunks may be empty, exactly as `re.split` leaves them).
The `Nat` argument is structural fuel; every step consumes at least one
character, so `s.length` fuel (supplied by `varSplitStr`) always
suffices, and the fuel-exhausted arm is unreachable. -/
def varSplitStrF : Nat → Str → List Str
  | _, [] => [[]]
  | 0, s => [s]
  | f + 1, '$' :: '\x7b' :: rest =>
    match breakSep '\x7d' rest with
    | some (name, after) =>
      if name.isEmpty then
        match varSplitStrF f ('\x7b' :: rest) with
        | h :: t => ('$' :: h) :: t
        | [] => [['$']]
      else [] :: ('$' :: '\x7b' :: (name ++ ['\x7d'])) :: varSplitStrF f after
    | none =>
      match varSplitStrF f ('\x7b' :: rest) with
      | h :: t => ('$' :: h) :: t
      | [] => [['$']]
  | f + 1, c :: rest =>
    match varSplitStrF f rest with
    | h :: t => (c :: h) :: t
    | [] => [[c]]

/-- `re.split(r"(\$\x7b[^}]+\})", part)` with the spans kept. -/
def varSplitStr (s : Str) : List Str := varSplitStrF s.length s

/-- The scanner of `re.sub(r"\$\x7b[^}]+\}", "~", value)` from
`ARNIndexer.normalize_for_sort`, with the same structural fuel. -/
def varSubF : Nat → Str → Str
  | _, [] => []
  | 0, s => s
  | f + 1, '$' :: '\x7b' :: rest =>
    match breakSep '\x7d' rest with
    | some (name, after) =>
      if name.isEmpty then '$' :: varSubF f ('\x7b' :: rest)
      else '~' :: varSubF f after
    | none => '$' :: varSubF f ('\x7b' :: rest)
  | f + 1, c :: rest => c :: varSubF f rest

/-- `re.sub(r"\$\x7b[^}]+\}", "~", value)`. -/
def varSub (s : Str) : Str := varSubF s.length s

/-- `ARNIndexer.parse_segments`: split the resource path on `/` and `:`,
then split each part around embedded variables, dropping empty pieces. -/
def parse_segments (resource : Str) : List Str :=
  let parts := (splitAllSep '/' resource).flatMap (fun s0 => splitAllSep ':' s0)
  parts.flatMap (fun part => (varSplitStr part).filter (fun s => !s.isEmpty))

/-- `ARNIndexer.normalize_for_sort`: variables become `~`, wildcards
become `~~`. -/
def normalize_for_sort (value : Str) : Str :=
  (varSub value).flatMap (fun c => if c = '*' then "~~".data else [c])

/-- The sort key computed by `ARNIndexer.sort_key`. -/
structure SortKey where
  nservice : Str
  nregion : Str
  naccount : Str
  negCount : Int
  nsegs : List Str
deriving DecidableEq, Repr

/-- `ARNIndexer.sort_key`. -/
def sort_key (r : ResourceRec) : SortKey :=
  let parts := splitLimit ':' 5 r.arn_pattern
  let service := if 2 < parts.length then parts.getD 2 [] else []
  let region := if 3 < parts.length then parts.getD 3 [] else []
  let account := if 4 < parts.length then parts.getD 4 [] else []
  let resource := if 5 < parts.length then parts.getD 5 [] else []
  let segments := parse_segments resource
  { nservice := normalize_for_sort service,
    nregion := normalize_for_sort region,
    naccount := normalize_for_sort account,
    negCount := -(segments.length : Int),
    nsegs := segments.map normalize_for_sort }

/-- Python's lexicographic comparison of lists/strings, parameterised by the
element order (`==` then `<` element by element; a proper prefix is
smaller). -/
def lexLt [DecidableEq α] (elt : α → α → Bool) : List α → List α → Bool
  | [], [] => false
  | [], _ :: _ => true
  | _ :: _, [] => false
  | a :: as, b :: bs => if a = b then lexLt elt as bs else elt a b

/-- Python's lexicographic comparison of pairs. -/
def pairLt [DecidableEq α] (fl : α → α → Bool) (sl : β → β → Bool)
    (x y : α × β) : Bool :=
  if x.1 = y.1 then sl x.2 y.2 else fl x.1 y.1

theorem lexLt_irrefl [DecidableEq α] {elt : α → α → Bool}
    (hirr : ∀ x, elt x x = false) (l : List α) : lexLt elt l l = false := by
  induction l with
  | nil => rfl
  | cons a t ih => simp [lexLt, ih]

theorem lexLt_trans [DecidableEq α] {elt : α → α → Bool}
    (hirr : ∀ x, elt x x = false)
    (htr : ∀ x y z, elt x y = true → elt y z = true → elt x z = true)
    {l1 l2 l3 : List α} (h1 : lexLt elt l1 l2 = true) (h2 : lexLt elt l2 l3 = true) :
    lexLt elt l1 l3 = true := by
  have hasym : ∀ x y, elt x y = true → x ≠ y := by
    intro x y hxy he
    subst he
    rw [hirr x] at hxy
    exact Bool.false_ne_true hxy
  induction l1 generalizing l2 l3 with
  | nil =>
    rcases l2 with _ | ⟨y, ys⟩
    · exact absurd h1 (by simp [lexLt])
    · rcases l3 with _ | ⟨z, zs⟩
      · exact absurd h2 (by simp [lexLt])
      · rfl
  | cons x xs ih =>
    rcases l2 with _ | ⟨y, ys⟩
    · exact absurd h1 (by simp [lexLt])
    · rcases l3 with _ | ⟨z, zs⟩
      · exact absurd h2 (by simp [lexLt])
      · rw [lexLt] at h1 h2 ⊢
        by_cases hxy : x = y
        · subst hxy
          rw [if_pos rfl] at h1
          by_cases hyz : x = z
          · subst hyz
            rw [if_pos rfl] at h2
            rw [if_pos rfl]
            exact ih h1 h2
          · rw [if_neg hyz] at h2
            rw [if_neg hyz]
            exact h2
        · rw [if_neg hxy] at h1
          by_cases hyz : y = z
          · subst hyz
            rw [if_neg hxy]
            exact h1
          · rw [if_neg hyz] at h2
            have hxz : elt x z = true := htr _ _ _ h1 h2
            rw [if_neg (hasym _ _ hxz)]
            exact hxz

theorem lexLt_connex [DecidableEq α] {elt : α → α → Bool}
    (hconn : ∀ x y, x ≠ y → elt x y = true ∨ elt y x = true)
    {l1 l2 : List α} (h : l1 ≠ l2) :
    lexLt elt l1 l2 = true ∨ lexLt elt l2 l1 = true := by
  induction l1 generalizing l2 with
  | nil =>
    rcases l2 with _ | ⟨y, ys⟩
    · exact absurd rfl h
    · left; rfl
  | cons x xs ih =>
    rcases l2 with _ | ⟨y, ys⟩
    · right; rfl
    · by_cases hxy : x = y
      · subst hxy
        have hne : xs ≠ ys := by
          intro he
          exact h (by rw [he])
        rcases ih hne with h2 | h2
        · left; rw [lexLt, if_pos rfl]; exact h2
        · right; rw [lexLt, if_pos rfl]; exact h2
      · rcases hconn x y hxy with h2 | h2
        · left; rw [lexLt, if_neg hxy]; exact h2
        · right; rw [lexLt, if_neg (Ne.symm hxy)]; exact h2

theorem pairLt_irrefl [DecidableEq α] {fl : α → α → Bool} {sl : β → β → Bool}
    (hsl : ∀ x, sl x x = false) (x : α × β) : pairLt fl sl x x = false := by
  simp [pairLt, hsl]

theorem pairLt_trans [DecidableEq α] {fl : α → α → Bool} {sl : β → β → Bool}
    (hfirr : ∀ x, fl x x = false)
    (hftr : ∀ x y z, fl x y = true → fl y z = true → fl x z = true)
    (hstr : ∀ x y z, sl x y = true → sl y z = true → sl x z = true)
    {x y z : α × β} (h1 : pairLt fl sl x y = true) (h2 : pairLt fl sl y z = true) :
    pairLt fl sl x z = true := by
  have hasym : ∀ a b, fl a b = true → a ≠ b := by
    intro a b hab he
    subst he
    rw [hfirr a] at hab
    exact Bool.false_ne_true hab
  rw [pairLt] at h1 h2 ⊢
  by_cases hxy : x.1 = y.1
  · rw [if_pos hxy] at h1
    by_cases hyz : y.1 = z.1
    · rw [if_pos hyz] at h2
      rw [if_pos (hxy.trans hyz)]
      exact hstr _ _ _ h1 h2
    · rw [if_neg hyz] at h2
      rw [if_neg (hxy ▸ hyz)]
      rw [hxy]
      exact h2
  · rw [if_neg hxy] at h1
    by_cases hyz : y.1 = z.1
    · rw [if_neg (hyz ▸ hxy)]
      rw [← hyz]
      exact h1
    · rw [if_neg hyz] at h2
      have hxz : fl x.1 z.1 = true := hftr _ _ _ h1 h2
      rw [if_neg (hasym _ _ hxz)]
      exact hxz

theorem pairLt_connex [DecidableEq α] [DecidableEq β]
    {fl : α → α → Bool} {sl : β → β → Bool}
    (hfc : ∀ x y, x ≠ y → fl x y = true ∨ fl y x = true)
    (hsc : ∀ x y, x ≠ y → sl x y = true ∨ sl y x = true)
    {x y : α × β} (h : x ≠ y) :
    pairLt fl sl x y = true ∨ pairLt fl sl y x = true := by
  rw [pairLt, pairLt]
  by_cases hxy : x.1 = y.1
  · rw [if_pos hxy, if_pos hxy.symm]
    have hne : x.2 ≠ y.2 := by
      intro he
      exact h (Prod.ext hxy he)
    exact hsc _ _ hne
  · rw [if_neg hxy, if_neg (Ne.symm hxy)]
    exact hfc _ _ hxy

/-- Python's `<` on characters (code-point order). -/
def charLt (a b : Char) : Bool := decide (a < b)

/-- Python's `<` on integers. -/
def intLt (a b : Int) : Bool := decide (a < b)

theorem charLt_irrefl (a : Char) : charLt a a = false := by simp [charLt]

theorem charLt_trans (a b c : Char) (h1 : charLt a b = true) (h2 : charLt b c = true) :
    charLt a c = true := by
  simp only [charLt, decide_eq_true_eq] at h1 h2 ⊢
  exact lt_trans h1 h2

theorem charLt_connex (a b : Char) (h : a ≠ b) :
    charLt a b = true ∨ charLt b a = true := by
  simp only [charLt, decide_eq_true_eq]
  rcases lt_trichotomy a b with h1 | h1 | h1
  · exact Or.inl h1
  · exact absurd h1 h
  · exact Or.inr h1

theorem intLt_irrefl (a : Int) : intLt a a = false := by simp [intLt]

theorem intLt_trans (a b c : Int) (h1 : intLt a b = true) (h2 : intLt b c = true) :
    intLt a c = true := by
  simp only [intLt, decide_eq_true_eq] at h1 h2 ⊢
  omega

theorem intLt_connex (a b : Int) (h : a ≠ b) : intLt a b = true ∨ intLt b a = true := by
  simp only [intLt, decide_eq_true_eq]
  omega

/-- Python's `<` on strings. -/
def strLt : Str → Str → Bool := lexLt charLt

/-- Python's `<` on lists of strings. -/
def segsLt : List Str → List Str → Bool := lexLt strLt

theorem strLt_irrefl (a : Str) : strLt a a = false := lexLt_irrefl charLt_irrefl a

theorem strLt_trans (a b c : Str) (h1 : strLt a b = true) (h2 : strLt b c = true) :
    strLt a c = true := lexLt_trans charLt_irrefl charLt_trans h1 h2

theorem strLt_connex (a b : Str) (h : a ≠ b) : strLt a b = true ∨ strLt b a = true :=
  lexLt_connex charLt_connex h

theorem segsLt_irrefl (a : List Str) : segsLt a a = false := lexLt_irrefl strLt_irrefl a

theorem segsLt_trans (a b c : List Str) (h1 : segsLt a b = true) (h2 : segsLt b c = true) :
    segsLt a c = true := lexLt_trans strLt_irrefl strLt_trans h1 h2

theorem segsLt_connex (a b : List Str) (h : a ≠ b) :
    segsLt a b = true ∨ segsLt b a = true := lexLt_connex strLt_connex h

/-- The sort key as the nested tuple Python compares. -/
def SortKey.tup (k : SortKey) : Str × Str × Str × Int × List Str :=
  (k.nservice, k.nregion, k.naccount, k.negCount, k.nsegs)

/-- Python's `<` on the 5-component sort-key tuples. -/
def keyLt : (Str × Str × Str × Int × List Str) → (Str × Str × Str × Int × List Str) → Bool :=
  pairLt strLt (pairLt strLt (pairLt strLt (pairLt intLt segsLt)))

theorem keyLt_irrefl (k : Str × Str × Str × Int × List Str) : keyLt k k = false :=
  pairLt_irrefl (pairLt_irrefl (pairLt_irrefl (pairLt_irrefl segsLt_irrefl))) k

theorem keyLt_trans (a b c : Str × Str × Str × Int × List Str)
    (h1 : keyLt a b = true) (h2 : keyLt b c = true) : keyLt a c = true := by
  refine pairLt_trans strLt_irrefl strLt_trans ?_ h1 h2
  intro x y z hx hy
  refine pairLt_trans strLt_irrefl strLt_trans ?_ hx hy
  intro x1 y1 z1 hx1 hy1
  refine pairLt_trans strLt_irrefl strLt_trans ?_ hx1 hy1
  intro x2 y2 z2 hx2 hy2
  exact pairLt_trans intLt_irrefl intLt_trans segsLt_trans hx2 hy2

theorem keyLt_connex (a b : Str × Str × Str × Int × List Str) (h : a ≠ b) :
    keyLt a b = true ∨ keyLt b a = true := by
  refine pairLt_connex strLt_connex ?_ h
  intro x y hxy
  refine pairLt_connex strLt_connex ?_ hxy
  intro x1 y1 hxy1
  refine pairLt_connex strLt_connex ?_ hxy1
  intro x2 y2 hxy2
  exact pairLt_connex intLt_connex segsLt_connex hxy2

/-- The Boolean `≤` used to model Python's stable ascending sort by
`sort_key` (`a ≤ b` iff not `key b < key a`). -/
def leRec (a b : ResourceRec) : Bool := !(keyLt (sort_key b).tup (sort_key a).tup)

/-- `ARNIndexer.sort_by_specificity`: `sorted(resources, key=self.sort_key)`
(a stable sort ascending by `sort_key`). -/
def sort_by_specificity (rs : List ResourceRec) : List ResourceRec :=
  rs.mergeSort leRec

theorem leRec_trans (a b c : ResourceRec) (h1 : leRec a b = true) (h2 : leRec b c = true) :
    leRec a c = true := by
  simp only [leRec, Bool.not_eq_true'] at h1 h2 ⊢
  by_contra hca
  rw [Bool.not_eq_false] at hca
  by_cases hab : (sort_key a).tup = (sort_key b).tup
  · rw [hab] at hca
    rw [hca] at h2
    simp at h2
  · rcases keyLt_connex _ _ hab with hk | hk
    · have h3 := keyLt_trans _ _ _ hca hk
      rw [h3] at h2
      simp at h2
    · rw [hk] at h1
      simp at h1

theorem leRec_total (a b : ResourceRec) : leRec a b || leRec b a := by
  simp only [leRec, Bool.or_eq_true, Bool.not_eq_true']
  cases hk1 : keyLt (sort_key b).tup (sort_key a).tup with
  | false => exact Or.inl rfl
  | true =>
    cases hk2 : keyLt (sort_key a).tup (sort_key b).tup with
    | false => exact Or.inr rfl
    | true =>
      have h3 := keyLt_trans _ _ _ hk1 hk2
      rw [keyLt_irrefl] at h3
      exact absurd h3 (by simp)

/-- The sorted registry order is ascending in `sort_key`. -/
theorem sort_by_specificity_sorted (rs : List ResourceRec) :
    (sort_by_specificity rs).Pairwise (fun a b => leRec a b = true) := by
  have h : (List.mergeSort rs leRec).Pairwise (fun a b => leRec a b = true) :=
    List.sorted_mergeSort
      (fun a b c h1 h2 => leRec_trans a b c h1 h2)
      (fun a b => leRec_total a b) rs
  exact h

/-- C3 as amended: `sort_by_specificity` sorts ascending by the key
(normalized service, normalized region, normalized account, negated
segment count, normalized segment list); consequently, among patterns that
agree on the three normalized header fields, one with strictly more
resource-path segments (strictly smaller negated count) precedes one with
fewer.  (Agreement on the header fields is necessary: they are compared
before the segment count, and a greater literal-segment count alone does
not force precedence — see the counterexample.) -/
theorem sort_by_specificity_more_segments_first (rs : List ResourceRec)
    (i j : Nat)
    (hi : i < (sort_by_specificity rs).length)
    (hj : j < (sort_by_specificity rs).length)
    (hsvc : (sort_key ((sort_by_specificity rs).get ⟨i, hi⟩)).nservice =
      (sort_key ((sort_by_specificity rs).get ⟨j, hj⟩)).nservice)
    (hreg : (sort_key ((sort_by_specificity rs).get ⟨i, hi⟩)).nregion =
      (sort_key ((sort_by_specificity rs).get ⟨j, hj⟩)).nregion)
    (hacc : (sort_key ((sort_by_specificity rs).get ⟨i, hi⟩)).naccount =
      (sort_key ((sort_by_specificity rs).get ⟨j, hj⟩)).naccount)
    (hseg : (sort_key ((sort_by_specificity rs).get ⟨i, hi⟩)).negCount <
      (sort_key ((sort_by_specificity rs).get ⟨j, hj⟩)).negCount) :
    i < j := by
  have hlt : keyLt (sort_key ((sort_by_specificity rs).get ⟨i, hi⟩)).tup
      (sort_key ((sort_by_specificity rs).get ⟨j, hj⟩)).tup = true := by
    simp only [SortKey.tup, keyLt, pairLt, hsvc, hreg, hacc, if_pos rfl]
    have hne : (sort_key ((sort_by_specificity rs).get ⟨i, hi⟩)).negCount ≠
        (sort_key ((sort_by_specificity rs).get ⟨j, hj⟩)).negCount := by omega
    rw [if_neg hne]
    simp only [intLt, decide_eq_true_eq]
    simpa using hseg
  by_contra hij
  push_neg at hij
  rcases Nat.lt_or_ge j i with hji | hji
  · have hpw := sort_by_specificity_sorted rs
    rw [List.pairwise_iff_get] at hpw
    have hle := hpw ⟨j, hj⟩ ⟨i, hi⟩ hji
    simp only [leRec, Bool.not_eq_true'] at hle
    rw [hlt] at hle
    simp at hle
  · have hij2 : i = j := by omega
    subst hij2
    exact absurd hseg (lt_irrefl _)

/-- Sorting a two-element list whose first element does not `leRec`-precede
the second swaps them. -/
theorem sort_pair_swap {A B : ResourceRec} (hAB : leRec A B = false) :
    sort_by_specificity [A, B] = [B, A] := by
  have hl : (sort_by_specificity [A, B]).length = 2 := by
    rw [sort_by_specificity, List.length_mergeSort]
    rfl
  have hperm : List.Perm (sort_by_specificity [A, B]) [A, B] :=
    List.mergeSort_perm [A, B] leRec
  have hpw := sort_by_specificity_sorted [A, B]
  rcases hout : sort_by_specificity [A, B] with _ | ⟨x, _ | ⟨y, _ | ⟨z, t⟩⟩⟩
  · rw [hout] at hl; simp at hl
  · rw [hout] at hl; simp at hl
  · rw [hout] at hperm hpw
    have hxy : leRec x y = true := by
      rcases List.pairwise_cons.mp hpw with ⟨h1, _⟩
      exact h1 y (List.mem_cons_self _ _)
    have hxmem : x ∈ [A, B] := hperm.mem_iff.mp (List.mem_cons_self _ _)
    rcases List.mem_cons.mp hxmem with hx | hx
    · subst hx
      have hyB : y = B := by
        have h2 : List.Perm [y] [B] := hperm.cons_inv
        simpa using h2
      subst hyB
      rw [hxy] at hAB
      simp at hAB
    · have hx2 : x = B := by simpa using hx
      have hyA : y = A := by
        have h2 : List.Perm [x, y] [B, A] := hperm.trans (List.Perm.swap A B []).symm
        rw [hx2] at h2
        have h3 : List.Perm [y] [A] := h2.cons_inv
        simpa using h3
      rw [hx2, hyA]
  · rw [hout] at hl; simp at hl

/-- Record A for the C3 counterexample: fully literal resource path
`a/b/c`, placeholder region. -/
def c3A : ResourceRec :=
  { service := "svc".data, resource_type := "abc".data,
    arn_pattern := "arn:$\x7bPartition\x7d:svc:$\x7bRegion\x7d:$\x7bAccount\x7d:a/b/c".data,
    arn_service := "svc".data }

/-- Record B for the C3 counterexample: one-segment resource path, empty
literal region. -/
def c3B : ResourceRec :=
  { service := "svc".data, resource_type := "x".data,
    arn_pattern := "arn:$\x7bPartition\x7d:svc::$\x7bAccount\x7d:x".data,
    arn_service := "svc".data }

/-- Is a `parse_segments` segment a whole `$\x7b...\x7d` placeholder span? -/
def isPlaceholderSeg (s : Str) : Bool :=
  match s with
  | '$' :: '\x7b' :: rest =>
    match breakSep '\x7d' rest with
    | some (name, after) => !name.isEmpty && after.isEmpty
    | none => false
  | _ => false

/-- A literal segment in the claim's sense: neither a placeholder span nor
wildcard-bearing. -/
def isLiteralSeg (s : Str) : Bool := !isPlaceholderSeg s && !s.contains '*'

/-- The template's service field, as `sort_key` reads it. -/
def serviceField (r : ResourceRec) : Str :=
  let parts := splitLimit ':' 5 r.arn_pattern
  if 2 < parts.length then parts.getD 2 [] else []

/-- The template's resource path (6th colon field), as `sort_key` reads
it. -/
def resourceField (r : ResourceRec) : Str :=
  let parts := splitLimit ':' 5 r.arn_pattern
  if 5 < parts.length then parts.getD 5 [] else []

/-- Count of literal (non-placeholder, non-wildcard) segments of the
resource path. -/
def literalSegCount (r : ResourceRec) : Nat :=
  ((parse_segments (resourceField r)).filter isLiteralSeg).length

/-- C3 counterexample: two same-service patterns where A has strictly more
literal segments (3 > 1) and no fewer total segments (3 ≥ 1) than B, yet
sorting puts B first — the key compares the normalized region field
(`~` for A's placeholder vs `""` for B's empty literal) before any segment
count. -/
theorem sort_by_specificity_order_cex :
    serviceField c3A = serviceField c3B ∧
    c3A.arn_service = c3B.arn_service ∧
    literalSegCount c3B < literalSegCount c3A ∧
    (parse_segments (resourceField c3B)).length ≤
      (parse_segments (resourceField c3A)).length ∧
    sort_by_specificity [c3A, c3B] = [c3B, c3A] := by
  exact ⟨by decide, by decide, by decide, by decide, sort_pair_swap (by decide)⟩

/-- Record with three resource segments for the C3 witness. -/
def c3wA : ResourceRec :=
  { service := "svc".data, resource_type := "abc".data,
    arn_pattern := "arn:$\x7bPartition\x7d:svc:$\x7bRegion\x7d:$\x7bAccount\x7d:a/b/c".data,
    arn_service := "svc".data }

/-- Record with one resource segment (same header fields) for the C3
witness. -/
def c3wB : ResourceRec :=
  { service := "svc".data, resource_type := "x".data,
    arn_pattern := "arn:$\x7bPartition\x7d:svc:$\x7bRegion\x7d:$\x7bAccount\x7d:x".data,
    arn_service := "svc".data }

/-- Witness for the amended C3: with equal header fields, the three-segment
pattern (index 0 after sorting) precedes the one-segment pattern
(index 1). -/
theorem sort_by_specificity_more_segments_first_witness : (0 : Nat) < 1 := by
  have hout : sort_by_specificity [c3wB, c3wA] = [c3wA, c3wB] :=
    sort_pair_swap (by decide)
  have hlen : (sort_by_specificity [c3wB, c3wA]).length = 2 := by
    rw [hout]
    rfl
  have h0 : (0 : Nat) < (sort_by_specificity [c3wB, c3wA]).length := by
    rw [hlen]
    decide
  have h1 : (1 : Nat) < (sort_by_specificity [c3wB, c3wA]).length := by
    rw [hlen]
    decide
  have hg0 : (sort_by_specificity [c3wB, c3wA]).get ⟨0, h0⟩ = c3wA := by
    rw [List.get_of_eq hout]
    rfl
  have hg1 : (sort_by_specificity [c3wB, c3wA]).get ⟨1, h1⟩ = c3wB := by
    rw [List.get_of_eq hout]
    rfl
  exact sort_by_specificity_more_segments_first [c3wB, c3wA] 0 1 h0 h1
    (by rw [hg0, hg1]; decide) (by rw [hg0, hg1]; decide)
    (by rw [hg0, hg1]; decide) (by rw [hg0, hg1]; decide)

/-! ### Claims C4, C6, C7 — the template compiler
(`CodeGenerator.pattern_to_regex`) -/

/-- A template token: the structural reading of the byte-sentinel passes of
`pattern_to_regex` (literal character, `$\x7b...\x7d` placeholder, `*`
wildcard). -/
inductive Tok where
  /-- One character of literal text. -/
  | lit (c : Char)
  /-- A `$\x7b...\x7d` placeholder with its (nonempty, `\x7d`-free) name. -/
  | ph (name : Str)
  /-- A literal `*`. -/
  | wc
deriving DecidableEq, Repr

/-- Left-to-right scan of a template, reading `$\x7b...\x7d` spans the way
`re.sub(r"\$\x7b([^}]+)\}", ..)` matches them (shortest closing `\x7d`,
nonempty name), `*` as a wildcard and everything else as literal text.
Fuel-structural: every step consumes at least one character, so
`s.length` fuel (supplied by `tokenize`) always suffices. -/
def tokenizeF : Nat → Str → List Tok
  | _, [] => []
  | 0, _ => []
  | f + 1, '$' :: '\x7b' :: rest =>
    match breakSep '\x7d' rest with
    | some (name, after) =>
      if name.isEmpty then .lit '$' :: tokenizeF f ('\x7b' :: rest)
      else .ph name :: tokenizeF f after
    | none => .lit '$' :: tokenizeF f ('\x7b' :: rest)
  | f + 1, '*' :: rest => .wc :: tokenizeF f rest
  | f + 1, c :: rest => .lit c :: tokenizeF f rest

/-- Token list of a template. -/
def tokenize (s : Str) : List Tok := tokenizeF s.length s

/-- Decimal digits of `n`, most significant first: the model of Python's
`f"{n}"` used to build the `\x00{i}\x00` sentinels.  Fuel-structural (`n`
fuel always suffices). -/
def decReprF : Nat → Nat → Str → Str
  | 0, n, acc => Nat.digitChar (n % 10) :: acc
  | f + 1, n, acc =>
    if n < 10 then Nat.digitChar n :: acc
    else decReprF f (n / 10) (Nat.digitChar (n % 10) :: acc)

/-- Decimal representation of a natural number. -/
def decRepr (n : Nat) : Str := decReprF n n []

/-- The `i`-th placeholder sentinel `f"\x00{i}\x00"`. -/
def sentinel (i : Nat) : Str := '\x00' :: (decRepr i ++ ['\x00'])

/-- The scanner of pass 1 of `pattern_to_regex`
(`re.sub(r"\$\x7b([^}]+)\}", capture_var, arn_pattern)`): collect the
placeholder names in order and replace each span by its numbered sentinel.
`i` is the running placeholder index, fuel as in `tokenizeF`. -/
def subPHF : Nat → Nat → Str → List Str × Str
  | _, _, [] => ([], [])
  | 0, _, _ => ([], [])
  | f + 1, i, '$' :: '\x7b' :: rest =>
    match breakSep '\x7d' rest with
    | some (name, after) =>
      if name.isEmpty then
        let p := subPHF f i ('\x7b' :: rest)
        (p.1, '$' :: p.2)
      else
        let p := subPHF f (i + 1) after
        (name :: p.1, sentinel i ++ p.2)
    | none =>
      let p := subPHF f i ('\x7b' :: rest)
      (p.1, '$' :: p.2)
  | f + 1, i, c :: rest =>
    let p := subPHF f i rest
    (p.1, c :: p.2)

/-- Pass 1 of `pattern_to_regex`: placeholder names and sentinel text. -/
def subPH (s : Str) : List Str × Str := subPHF s.length 0 s

/-- The characters Python 3.7+ `re.escape` prefixes with a backslash. -/
def isSpecialRe (c : Char) : Bool :=
  c ∈ ['(', ')', '[', ']', '\x7b', '\x7d', '?', '*', '+', '-', '|', '^', '$',
       '\\', '.', '&', '~', '#', ' ', '\t', '\n', '\r', '\x0b', '\x0c']

/-- `re.escape` on one character. -/
def escRe (c : Char) : Str := if isSpecialRe c then ['\\', c] else [c]

/-- Net escaping after the `"\\-" → "-"` fix-up: every special character
except the hyphen is escaped. -/
def escHy (c : Char) : Str := if c = '-' then ['-'] else escRe c

/-- Python's `str.replace(pat, rep)` (all occurrences, left to right,
non-overlapping).  Fuel-structural; the fuel-exhausted arm is unreachable
for `s.length` fuel.  The `pat = []` guard mirrors nothing in the source —
`pattern_to_regex` only ever replaces nonempty strings — and merely keeps
the function total. -/
def replaceListF (pat rep : Str) : Nat → Str → Str
  | _, [] => []
  | 0, s => s
  | f + 1, c :: rest =>
    match stripPre pat (c :: rest) with
    | some remainder =>
      if pat.isEmpty then c :: replaceListF pat rep f rest
      else rep ++ replaceListF pat rep f remainder
    | none => c :: replaceListF pat rep f rest

/-- `str.replace` with always-sufficient fuel. -/
def replaceList (pat rep s : Str) : Str := replaceListF pat rep s.length s

/-- `CodeGenerator.PLACEHOLDER_PATTERNS.get(name, ".+?")` as regex source
text. -/
def PLACEHOLDER_PATTERNS (name : Str) : Str :=
  if name = "Partition".data then "[\\w-]+".data
  else if name = "Region".data then "[\\w-]*".data
  else if name = "Account".data then "\\d\x7b12\x7d".data
  else ".+?".data

/-- The `(?P<name>pattern)` text substituted for sentinel `i`. -/
def groupText (name : Str) : Str :=
  "(?P<".data ++ name ++ ">".data ++ PLACEHOLDER_PATTERNS name ++ ")".data

/-- `CodeGenerator.pattern_to_regex`: sentinel substitution, `*` marking,
`re.escape`, hyphen unescape, sentinel→group replacement (in placeholder
order), wildcard→`.*`, and anchoring. -/
def pattern_to_regex (t : Str) : Str :=
  let p := subPH t
  let t2 := p.2.map (fun c => if c = '*' then '\x01' else c)
  let t3 := t2.flatMap escRe
  let t4 := replaceList ['\\', '-'] ['-'] t3
  let t5 := p.1.enum.foldl
    (fun acc q => replaceList (sentinel q.1) (groupText q.2) acc) t4
  let t6 := replaceList ['\x01'] ".*".data t5
  '^' :: (t6 ++ ['$'])

/-- Rendering of one token in the finished regex: escaped literal (hyphen
unescaped), named group, or `.*`. -/
def renderTok : Tok → Str
  | .lit c => escHy c
  | .ph name => groupText name
  | .wc => ".*".data

/-- The names of the placeholder tokens, in order. -/
def phNames (toks : List Tok) : List Str :=
  toks.filterMap (fun t => match t with | .ph n => some n | _ => none)

/-- Scan for the one shape on which the sentinel scheme miscarries: a
placeholder, then a nonempty run of digit literals, then immediately
another placeholder (the digit run together with the neighbouring
`\x00` bytes can spell another sentinel).  The state records whether we
are just after a placeholder (`some false`) or inside a digit run that
follows one (`some true`). -/
def sepScan : Option Bool → List Tok → Bool
  | some true, .ph _ :: _ => false
  | _, .ph _ :: rest => sepScan (some false) rest
  | st, .lit c :: rest =>
    if c.isDigit && st.isSome then sepScan (some true) rest
    else sepScan none rest
  | _, .wc :: rest => sepScan none rest
  | _, [] => true

/-- `stripPre` succeeds exactly on prefixes, returning the remainder. -/
theorem stripPre_eq_some_iff {p s r : Str} : stripPre p s = some r ↔ s = p ++ r := by
  induction p generalizing s with
  | nil =>
    simp [stripPre]
  | cons x p' ih =>
    rcases s with _ | ⟨c, rest⟩
    · simp [stripPre]
    · rw [stripPre]
      by_cases hx : x = c
      · subst hx
        rw [if_pos rfl, ih]
        simp
      · rw [if_neg hx]
        simp
        intro hc
        exact absurd hc.symm hx

/-- Fuel does not matter for `replaceListF` once it covers the string. -/
theorem replaceListF_fuel {pat rep : Str} :
    ∀ f g s, s.length ≤ f → s.length ≤ g →
    replaceListF pat rep f s = replaceListF pat rep g s := by
  intro f
  induction f with
  | zero =>
    intro g s hf _
    have : s = [] := List.eq_nil_of_length_eq_zero (by omega)
    subst this
    cases g <;> rfl
  | succ f' ih =>
    intro g s hf hg
    rcases s with _ | ⟨c, rest⟩
    · cases g <;> rfl
    · rcases g with _ | g'
      · simp at hg
      · rw [replaceListF, replaceListF]
        rcases hsp : stripPre pat (c :: rest) with _ | rem
        · rw [ih g' rest (by simp at hf; omega) (by simp at hg; omega)]
        · by_cases hpe : pat.isEmpty
          · simp only [hpe, if_pos]
            rw [ih g' rest (by simp at hf; omega) (by simp at hg; omega)]
          · simp only [hpe, if_neg]
            have hrem : (c :: rest).length = pat.length + rem.length := by
              have := stripPre_eq_some_iff.mp hsp
              rw [this]
              simp
            have hpl : 1 ≤ pat.length := by
              rcases pat with _ | _
              · simp [List.isEmpty] at hpe
              · simp
            rw [ih g' rem (by simp at hf hrem; omega) (by simp at hg hrem; omega)]
            norm_num

/-- Unfolding equation of `replaceList` on a nonempty string (for nonempty
patterns). -/
theorem replaceList_cons (pat rep : Str) (hp : pat ≠ []) (c : Char) (rest : Str) :
    replaceList pat rep (c :: rest) =
      match stripPre pat (c :: rest) with
      | some rem => rep ++ replaceList pat rep rem
      | none => c :: replaceList pat rep rest := by
  rw [replaceList, List.length_cons, replaceListF]
  rcases hsp : stripPre pat (c :: rest) with _ | rem
  · rfl
  · have hpe : ¬ pat.isEmpty := by
      rcases pat with _ | _
      · exact absurd rfl hp
      · simp
    simp only [hpe, if_neg]
    have hrem : (c :: rest).length = pat.length + rem.length := by
      have := stripPre_eq_some_iff.mp hsp
      rw [this]
      simp
    have hpl : 1 ≤ pat.length := by
      rcases pat with _ | _
      · exact absurd rfl hp
      · simp
    rw [replaceList]
    rw [replaceListF_fuel rest.length rem.length rem (by simp at hrem; omega) (le_refl _)]
    simp

/-- `replaceList` of the empty string. -/
theorem replaceList_nil (pat rep : Str) : replaceList pat rep [] = [] := rfl

/-- Replacing a single character rewrites it pointwise. -/
theorem replaceList_single (k : Char) (rep : Str) (s : Str) :
    replaceList [k] rep s = s.flatMap (fun c => if c = k then rep else [c]) := by
  induction s with
  | nil => rfl
  | cons c rest ih =>
    rw [replaceList_cons [k] rep (by simp) c rest]
    by_cases hc : c = k
    · subst hc
      have hsp : stripPre [c] (c :: rest) = some rest := by simp [stripPre]
      rw [hsp]
      simp [ih]
    · have hsp : stripPre [k] (c :: rest) = none := by
        simp [stripPre]
        exact fun hc2 => absurd hc2.symm hc
      rw [hsp]
      simp [hc, ih]

/-- A replacement whose pattern starts with a character absent from `A`
leaves `A` untouched. -/
theorem replaceList_skip {k : Char} {ptail rep A B : Str}
    (hA : k ∉ A) :
    replaceList (k :: ptail) rep (A ++ B) = A ++ replaceList (k :: ptail) rep B := by
  induction A with
  | nil => simp
  | cons a A' ih =>
    have ha : a ≠ k := by
      intro he
      exact hA (he ▸ List.mem_cons_self a A')
    rw [List.cons_append, replaceList_cons _ _ (by simp) a (A' ++ B)]
    have hsp : stripPre (k :: ptail) (a :: (A' ++ B)) = none := by
      rw [stripPre]
      rw [if_neg (fun he => ha he.symm)]
    rw [hsp, ih (fun hm => hA (List.mem_cons_of_mem _ hm))]
    simp

/-- A replacement fires on an exact occurrence of the pattern. -/
theorem replaceList_hit {pat rep B : Str} (hp : pat ≠ []) :
    replaceList pat rep (pat ++ B) = rep ++ replaceList pat rep B := by
  rcases pat with _ | ⟨p, ptail⟩
  · exact absurd rfl hp
  · rw [List.cons_append, replaceList_cons _ _ hp p (ptail ++ B)]
    have hsp : stripPre (p :: ptail) (p :: (ptail ++ B)) = some B :=
      stripPre_eq_some_iff.mpr (by simp)
    rw [hsp]

/-- A replacement with no occurrence of the pattern is the identity. -/
theorem replaceList_absent {pat rep B : Str} (hp : pat ≠ [])
    (h : ¬ pat <:+: B) : replaceList pat rep B = B := by
  induction B with
  | nil => rfl
  | cons c rest ih =>
    rw [replaceList_cons _ _ hp c rest]
    rcases hsp : stripPre pat (c :: rest) with _ | rem
    · rw [ih (fun hi => h ((List.infix_cons_iff).mpr (Or.inr hi)))]
    · exfalso
      apply h
      have := stripPre_eq_some_iff.mp hsp
      exact ⟨[], rem, by rw [this]; simp⟩

/-- The accumulator of `decReprF` is a suffix. -/
theorem decReprF_acc : ∀ (f n : Nat) (acc : Str),
    decReprF f n acc = decReprF f n [] ++ acc := by
  intro f
  induction f with
  | zero => intro n acc; rfl
  | succ f' ih =>
    intro n acc
    rw [decReprF, decReprF]
    by_cases hn : n < 10
    · rw [if_pos hn, if_pos hn]
      rfl
    · rw [if_neg hn, if_neg hn, ih (n / 10) (Nat.digitChar (n % 10) :: acc),
        ih (n / 10) [Nat.digitChar (n % 10)]]
      simp

/-- Fuel does not matter for `decReprF` once it covers the number. -/
theorem decReprF_fuel : ∀ (f g n : Nat) (acc : Str), n ≤ f → n ≤ g →
    decReprF f n acc = decReprF g n acc := by
  intro f
  induction f with
  | zero =>
    intro g n acc hf _
    have hn : n = 0 := by omega
    subst hn
    cases g with
    | zero => rfl
    | succ g' =>
      rw [decReprF, decReprF]
      rw [if_pos (by omega)]
  | succ f' ih =>
    intro g n acc hf hg
    by_cases hn : n < 10
    · cases g with
      | zero =>
        have hn0 : n = 0 := by omega
        subst hn0
        rw [decReprF, decReprF, if_pos (by omega)]
      | succ g' =>
        rw [decReprF, decReprF, if_pos hn, if_pos hn]
    · cases g with
      | zero => omega
      | succ g' =>
        rw [decReprF, decReprF, if_neg hn, if_neg hn]
        exact ih g' (n / 10) _ (by omega) (by omega)

/-- `decRepr` of a single digit. -/
theorem decRepr_small {n : Nat} (hn : n < 10) : decRepr n = [Nat.digitChar n] := by
  rw [decRepr]
  cases n with
  | zero => rfl
  | succ m =>
    rw [decReprF, if_pos hn]

/-- `decRepr` of a multi-digit number peels off the last digit. -/
theorem decRepr_big {n : Nat} (hn : 10 ≤ n) :
    decRepr n = decRepr (n / 10) ++ [Nat.digitChar (n % 10)] := by
  rw [decRepr]
  rcases n with _ | m
  · omega
  · rw [decReprF, if_neg (by omega)]
    rw [decReprF_fuel m (n := (m + 1) / 10) (g := (m + 1) / 10) _ (by omega) (le_refl _)]
    rw [decReprF_acc]
    rfl

/-- Facts about digit characters (digits `0`–`9`). -/
theorem digitChar_facts : ∀ k, k < 10 →
    (Nat.digitChar k).isDigit = true ∧ Nat.digitChar k ≠ '\x00' ∧
    (Nat.digitChar k).toNat = 48 + k := by decide

/-- Every character of `decRepr n` is a digit. -/
theorem decRepr_digits (n : Nat) : ∀ c ∈ decRepr n, c.isDigit = true := by
  induction n using Nat.strong_induction_on with
  | _ n ih =>
    by_cases hn : n < 10
    · rw [decRepr_small hn]
      intro c hc
      simp at hc
      subst hc
      exact (digitChar_facts n hn).1
    · rw [decRepr_big (by omega)]
      intro c hc
      rcases List.mem_append.mp hc with h | h
      · exact ih (n / 10) (by omega) c h
      · simp at h
        subst h
        exact (digitChar_facts (n % 10) (by omega)).1

/-- Decimal value of a digit string. -/
def digitsVal (ds : Str) : Nat := ds.foldl (fun a c => 10 * a + (c.toNat - 48)) 0

/-- `digitsVal` over an appended last digit. -/
theorem digitsVal_append_digit (ds : Str) (c : Char) :
    digitsVal (ds ++ [c]) = 10 * digitsVal ds + (c.toNat - 48) := by
  rw [digitsVal, List.foldl_append]
  rfl

/-- `decRepr` round-trips through `digitsVal`. -/
theorem digitsVal_decRepr (n : Nat) : digitsVal (decRepr n) = n := by
  induction n using Nat.strong_induction_on with
  | _ n ih =>
    by_cases hn : n < 10
    · rw [decRepr_small hn]
      rw [digitsVal]
      simp [List.foldl]
      rw [(digitChar_facts n hn).2.2]
      omega
    · rw [decRepr_big (by omega), digitsVal_append_digit, ih (n / 10) (by omega),
        (digitChar_facts (n % 10) (by omega)).2.2]
      omega

/-- Decimal representations are injective. -/
theorem decRepr_inj {m n : Nat} (h : decRepr m = decRepr n) : m = n := by
  have := digitsVal_decRepr m
  rw [h, digitsVal_decRepr] at this
  omega

/-- Decimal representations are nonempty. -/
theorem decRepr_ne_nil (n : Nat) : decRepr n ≠ [] := by
  by_cases hn : n < 10
  · rw [decRepr_small hn]
    simp
  · rw [decRepr_big (by omega)]
    simp

/-- Decimal representations never contain the NUL sentinel byte. -/
theorem decRepr_no_nul (n : Nat) : '\x00' ∉ decRepr n := by
  intro h
  have := decRepr_digits n _ h
  simp [Char.isDigit] at this

/-- The sentinel text of pass 1, reconstructed from tokens (placeholder
indices threaded from `i`). -/
def sentRender (i : Nat) : List Tok → Str
  | [] => []
  | .ph _ :: rest => sentinel i ++ sentRender (i + 1) rest
  | .lit c :: rest => c :: sentRender i rest
  | .wc :: rest => '*' :: sentRender i rest

/-- The text after pass 2 (`*` → `\x01`), reconstructed from tokens. -/
def markRender (i : Nat) : List Tok → Str
  | [] => []
  | .ph _ :: rest => sentinel i ++ markRender (i + 1) rest
  | .lit c :: rest => c :: markRender i rest
  | .wc :: rest => '\x01' :: markRender i rest

/-- The text after passes 3–4 and the first `k` sentinel substitutions of
pass 5: placeholders with index below `k` are group texts, the rest still
sentinels; literals are escaped (hyphen kept), wildcards are `\x01`
markers. -/
def stageRender (k : Nat) (i : Nat) : List Tok → Str
  | [] => []
  | .ph n :: rest =>
    (if i < k then groupText n else sentinel i) ++ stageRender k (i + 1) rest
  | .lit c :: rest => escHy c ++ stageRender k i rest
  | .wc :: rest => '\x01' :: stageRender k i rest

/-- Pass 1 computes exactly the placeholder names and the sentinel text of
the token reading. -/
theorem subPHF_eq_tokenizeF : ∀ (f : Nat) (s : Str) (i : Nat), s.length ≤ f →
    subPHF f i s = (phNames (tokenizeF f s), sentRender i (tokenizeF f s)) := by
  intro f
  induction f with
  | zero =>
    intro s i hf
    have hs : s = [] := List.eq_nil_of_length_eq_zero (by omega)
    subst hs
    rfl
  | succ f' ih =>
    intro s i hf
    rcases s with _ | ⟨c, rest⟩
    · rfl
    · by_cases hop : c = '$' ∧ ∃ r2, rest = '\x7b' :: r2
      · obtain ⟨hc, r2, hr⟩ := hop
        subst hc
        subst hr
        rw [subPHF, tokenizeF]
        rcases hb : breakSep '\x7d' r2 with _ | ⟨name, after⟩
        · rw [ih ('\x7b' :: r2) i (by simp at hf ⊢; omega)]
          simp [phNames, sentRender]
        · dsimp only
          by_cases hne : name.isEmpty
          · rw [if_pos hne, if_pos hne, ih ('\x7b' :: r2) i (by simp at hf ⊢; omega)]
            simp [phNames, sentRender]
          · rw [if_neg hne, if_neg hne]
            have hlen := breakSep_len hb
            rw [ih after (i + 1) (by simp at hf ⊢; omega)]
            simp [phNames, sentRender]
      · have hcond : ∀ (r2 : List Char), c = '$' → rest = '\x7b' :: r2 → False := by
          intro r2 hc hr
          exact hop ⟨hc, r2, hr⟩
        have hrl : rest.length ≤ f' := by simp at hf; omega
        by_cases hcs : c = '*'
        · subst hcs
          rw [tokenizeF.eq_4, subPHF.eq_4 i f' '*' rest hcond, ih rest i hrl]
          simp [phNames, sentRender]
        · rw [tokenizeF.eq_5 f' c rest hcond (fun h => hcs h),
            subPHF.eq_4 i f' c rest hcond, ih rest i hrl]
          simp [phNames, sentRender]

/-- Characters of both parts of a `breakSep` split come from the input. -/
theorem breakSep_mem {sep : Char} {s a b : Str} (h : breakSep sep s = some (a, b)) :
    (∀ c ∈ a, c ∈ s) ∧ (∀ c ∈ b, c ∈ s) := by
  induction s generalizing a b with
  | nil => simp [breakSep] at h
  | cons x rest ih =>
    rw [breakSep] at h
    split at h
    · simp at h
      obtain ⟨h1, h2⟩ := h
      subst h1
      subst h2
      exact ⟨by simp, fun c hc => List.mem_cons_of_mem _ hc⟩
    · rw [Option.map_eq_some'] at h
      obtain ⟨⟨a0, b0⟩, h1, h2⟩ := h
      obtain ⟨ha0, hb0⟩ := ih h1
      have he1 : a = x :: a0 := by
        have := congrArg Prod.fst h2
        simpa using this.symm
      have he2 : b = b0 := by
        have := congrArg Prod.snd h2
        simpa using this.symm
      subst he1
      subst he2
      constructor
      · intro c hc
        rcases List.mem_cons.mp hc with hc | hc
        · exact hc ▸ List.mem_cons_self _ _
        · exact List.mem_cons_of_mem _ (ha0 c hc)
      · exact fun c hc => List.mem_cons_of_mem _ (hb0 c hc)

/-- Shape facts about tokens: literal characters come from the template and
are never `*`; placeholder names are nonempty and their characters come
from the template. -/
theorem tokenizeF_chars : ∀ (f : Nat) (s : Str),
    (∀ c, Tok.lit c ∈ tokenizeF f s → c ∈ s ∧ c ≠ '*') ∧
    (∀ n, Tok.ph n ∈ tokenizeF f s → n ≠ [] ∧ ∀ c ∈ n, c ∈ s) := by
  intro f
  induction f with
  | zero =>
    intro s
    constructor <;> intro x hx <;> rcases s with _ | ⟨c0, rest⟩ <;> simp [tokenizeF] at hx
  | succ f' ih =>
    intro s
    rcases s with _ | ⟨c, rest⟩
    · constructor <;> intro x hx <;> simp [tokenizeF] at hx
    · by_cases hop : c = '$' ∧ ∃ r2, rest = '\x7b' :: r2
      · obtain ⟨hc, r2, hr⟩ := hop
        subst hc
        subst hr
        rw [tokenizeF]
        rcases hb : breakSep '\x7d' r2 with _ | ⟨name, after⟩
        · constructor
          · intro x hx
            rcases List.mem_cons.mp hx with hx | hx
            · injection hx with hx
              subst hx
              exact ⟨List.mem_cons_self _ _, by decide⟩
            · obtain ⟨hmem, hne⟩ := (ih ('\x7b' :: r2)).1 x hx
              exact ⟨List.mem_cons_of_mem _ hmem, hne⟩
          · intro n hn
            rcases List.mem_cons.mp hn with hn | hn
            · exact absurd hn (by simp)
            · obtain ⟨hne, hmem⟩ := (ih ('\x7b' :: r2)).2 n hn
              exact ⟨hne, fun c hc => List.mem_cons_of_mem _ (hmem c hc)⟩
        · dsimp only
          by_cases hne : name.isEmpty
          · rw [if_pos hne]
            constructor
            · intro x hx
              rcases List.mem_cons.mp hx with hx | hx
              · injection hx with hx
                subst hx
                exact ⟨List.mem_cons_self _ _, by decide⟩
              · obtain ⟨hmem, hns⟩ := (ih ('\x7b' :: r2)).1 x hx
                exact ⟨List.mem_cons_of_mem _ hmem, hns⟩
            · intro n hn
              rcases List.mem_cons.mp hn with hn | hn
              · exact absurd hn (by simp)
              · obtain ⟨hnn, hmem⟩ := (ih ('\x7b' :: r2)).2 n hn
                exact ⟨hnn, fun c hc => List.mem_cons_of_mem _ (hmem c hc)⟩
          · rw [if_neg hne]
            have hbm := breakSep_mem hb
            constructor
            · intro x hx
              rcases List.mem_cons.mp hx with hx | hx
              · exact absurd hx (by simp)
              · obtain ⟨hmem, hns⟩ := (ih after).1 x hx
                exact ⟨List.mem_cons_of_mem _ (List.mem_cons_of_mem _ (hbm.2 x hmem)), hns⟩
            · intro n hn
              rcases List.mem_cons.mp hn with hn | hn
              · injection hn with hn
                subst hn
                refine ⟨by simpa using hne, ?_⟩
                intro c hc
                exact List.mem_cons_of_mem _ (List.mem_cons_of_mem _ (hbm.1 c hc))
              · obtain ⟨hnn, hmem⟩ := (ih after).2 n hn
                exact ⟨hnn, fun c hc =>
                  List.mem_cons_of_mem _ (List.mem_cons_of_mem _ (hbm.2 c (hmem c hc)))⟩
      · have hcond : ∀ (r2 : List Char), c = '$' → rest = '\x7b' :: r2 → False := by
          intro r2 hc hr
          exact hop ⟨hc, r2, hr⟩
        by_cases hcs : c = '*'
        · subst hcs
          rw [tokenizeF.eq_4]
          constructor
          · intro x hx
            rcases List.mem_cons.mp hx with hx | hx
            · exact absurd hx (by simp)
            · obtain ⟨hmem, hns⟩ := (ih rest).1 x hx
              exact ⟨List.mem_cons_of_mem _ hmem, hns⟩
          · intro n hn
            rcases List.mem_cons.mp hn with hn | hn
            · exact absurd hn (by simp)
            · obtain ⟨hnn, hmem⟩ := (ih rest).2 n hn
              exact ⟨hnn, fun c hc => List.mem_cons_of_mem _ (hmem c hc)⟩
        · rw [tokenizeF.eq_5 f' c rest hcond (fun h => hcs h)]
          constructor
          · intro x hx
            rcases List.mem_cons.mp hx with hx | hx
            · injection hx with hx
              subst hx
              exact ⟨List.mem_cons_self _ _, hcs⟩
            · obtain ⟨hmem, hns⟩ := (ih rest).1 x hx
              exact ⟨List.mem_cons_of_mem _ hmem, hns⟩
          · intro n hn
            rcases List.mem_cons.mp hn with hn | hn
            · exact absurd hn (by simp)
            · obtain ⟨hnn, hmem⟩ := (ih rest).2 n hn
              exact ⟨hnn, fun c hc => List.mem_cons_of_mem _ (hmem c hc)⟩

/-- Special regex characters are never digits. -/
theorem isSpecialRe_of_digit {c : Char} (h : c.isDigit = true) : isSpecialRe c = false := by
  by_contra hs
  rw [Bool.not_eq_false] at hs
  simp only [isSpecialRe, List.mem_cons, decide_eq_true_eq, List.mem_singleton,
    List.not_mem_nil, or_false] at hs
  rcases hs with rfl | rfl | rfl | rfl | rfl | rfl | rfl | rfl | rfl | rfl | rfl | rfl |
    rfl | rfl | rfl | rfl | rfl | rfl | rfl | rfl | rfl | rfl | rfl | rfl <;> simp at h

/-- Digits pass through `re.escape` unchanged. -/
theorem escRe_digit {c : Char} (h : c.isDigit = true) : escRe c = [c] := by
  rw [escRe, isSpecialRe_of_digit h]
  simp

/-- Digits pass through the net escaping unchanged. -/
theorem escHy_digit {c : Char} (h : c.isDigit = true) : escHy c = [c] := by
  rw [escHy]
  have hc : c ≠ '-' := by
    intro he
    subst he
    simp at h
  rw [if_neg hc, escRe_digit h]

/-- Digits are not the wildcard `*`. -/
theorem digit_ne_star {c : Char} (h : c.isDigit = true) : c ≠ '*' := by
  intro he
  subst he
  simp at h

/-- A pointwise-identity map is the identity. -/
theorem map_id_of_mem {f : Char → Char} {l : Str} (h : ∀ c ∈ l, f c = c) :
    l.map f = l :=
  (List.map_congr_left h).trans (List.map_id l)

/-- A pointwise-singleton `flatMap` is the identity. -/
theorem flatMap_singleton_id {f : Char → Str} {l : Str} (h : ∀ c ∈ l, f c = [c]) :
    l.flatMap f = l := by
  induction l with
  | nil => rfl
  | cons c rest ih =>
    rw [List.flatMap_cons, h c (List.mem_cons_self _ _),
      ih (fun x hx => h x (List.mem_cons_of_mem _ hx))]
    rfl

/-- The `*`→`\x01` marking pass leaves a sentinel unchanged. -/
theorem sentinel_map_star (m : Nat) :
    (sentinel m).map (fun c => if c = '*' then '\x01' else c) = sentinel m := by
  refine map_id_of_mem ?_
  intro c hc
  rw [sentinel] at hc
  rcases List.mem_cons.mp hc with hc | hc
  · subst hc
    decide
  · rcases List.mem_append.mp hc with hc | hc
    · rw [if_neg (digit_ne_star (decRepr_digits m c hc))]
    · simp at hc
      subst hc
      decide

/-- `re.escape` leaves a sentinel unchanged. -/
theorem sentinel_flatMap_escRe (m : Nat) :
    (sentinel m).flatMap escRe = sentinel m := by
  refine flatMap_singleton_id ?_
  intro c hc
  rw [sentinel] at hc
  rcases List.mem_cons.mp hc with hc | hc
  · subst hc
    decide
  · rcases List.mem_append.mp hc with hc | hc
    · exact escRe_digit (decRepr_digits m c hc)
    · simp at hc
      subst hc
      decide

/-- The net escaping leaves a sentinel unchanged. -/
theorem sentinel_flatMap_escHy (m : Nat) :
    (sentinel m).flatMap escHy = sentinel m := by
  refine flatMap_singleton_id ?_
  intro c hc
  rw [sentinel] at hc
  rcases List.mem_cons.mp hc with hc | hc
  · subst hc
    decide
  · rcases List.mem_append.mp hc with hc | hc
    · exact escHy_digit (decRepr_digits m c hc)
    · simp at hc
      subst hc
      decide

/-- Pass 2: marking wildcards turns the sentinel text into the marked
text. -/
theorem map_star_sentRender (toks : List Tok)
    (hl : ∀ c, Tok.lit c ∈ toks → c ≠ '*') :
    ∀ i, (sentRender i toks).map (fun c => if c = '*' then '\x01' else c) =
      markRender i toks := by
  induction toks with
  | nil => intro i; rfl
  | cons t rest ih =>
    intro i
    have hlr : ∀ c, Tok.lit c ∈ rest → c ≠ '*' :=
      fun c hc => hl c (List.mem_cons_of_mem _ hc)
    rcases t with c | n | _
    · rw [sentRender, markRender]
      simp only [List.map_cons]
      rw [if_neg (hl c (List.mem_cons_self _ _)), ih hlr i]
    · rw [sentRender, markRender, List.map_append, sentinel_map_star, ih hlr (i + 1)]
    · rw [sentRender, markRender]
      simp only [List.map_cons, if_pos]
      rw [ih hlr i]

/-- The escaped text never starts with a bare hyphen. -/
theorem flatMap_escRe_head (l : Str) :
    l.flatMap escRe = [] ∨ ∃ h t, l.flatMap escRe = h :: t ∧ h ≠ '-' := by
  rcases l with _ | ⟨c, rest⟩
  · exact Or.inl rfl
  · right
    rw [List.flatMap_cons, escRe]
    by_cases hs : isSpecialRe c
    · rw [if_pos hs]
      exact ⟨'\\', _, rfl, by decide⟩
    · rw [if_neg hs]
      refine ⟨c, _, rfl, ?_⟩
      intro he
      subst he
      simp [isSpecialRe] at hs

/-- Pass 4: the `"\\-" → "-"` fix-up turns full escaping into
escape-except-hyphen, on any string. -/
theorem replaceList_unescape_hyphen (l : Str) :
    replaceList ['\\', '-'] ['-'] (l.flatMap escRe) = l.flatMap escHy := by
  induction l with
  | nil => rfl
  | cons c rest ih =>
    rw [List.flatMap_cons, List.flatMap_cons]
    by_cases hs : isSpecialRe c
    · by_cases hh : c = '-'
      · subst hh
        rw [show escRe '-' = ['\\', '-'] from by decide]
        rw [show ('\\' :: '-' :: []) ++ rest.flatMap escRe =
          ['\\', '-'] ++ rest.flatMap escRe from rfl]
        rw [replaceList_hit (by simp), ih]
        rfl
      · rw [escRe, if_pos hs, escHy, if_neg hh, escRe, if_pos hs]
        have h1 : ('\\' :: c :: []) ++ rest.flatMap escRe =
            '\\' :: (c :: rest.flatMap escRe) := rfl
        rw [h1, replaceList_cons _ _ (by simp) _ _]
        have hsp1 : stripPre ['\\', '-'] ('\\' :: (c :: rest.flatMap escRe)) = none := by
          rw [stripPre, if_pos rfl, stripPre, if_neg (fun he => hh he.symm)]
        rw [hsp1]
        by_cases hbs : c = '\\'
        · subst hbs
          rw [replaceList_cons _ _ (by simp) _ _]
          have hsp2 : stripPre ['\\', '-'] ('\\' :: rest.flatMap escRe) = none := by
            rw [stripPre, if_pos rfl]
            rcases flatMap_escRe_head rest with h2 | ⟨h0, t0, h2, h3⟩
            · rw [h2]
              rfl
            · rw [h2, stripPre, if_neg (fun he => h3 he.symm)]
          rw [hsp2, ih]
          rfl
        · rw [replaceList_cons _ _ (by simp) _ _]
          have hsp2 : stripPre ['\\', '-'] (c :: rest.flatMap escRe) = none := by
            rw [stripPre, if_neg (fun he => hbs he.symm)]
          rw [hsp2, ih]
          rfl
    · have hh : c ≠ '-' := by
        intro he
        subst he
        simp [isSpecialRe] at hs
      rw [escRe, if_neg hs, escHy, if_neg hh, escRe, if_neg hs]
      have h1 : (c :: []) ++ rest.flatMap escRe = c :: rest.flatMap escRe := rfl
      rw [h1, replaceList_cons _ _ (by simp) _ _]
      have hbs : c ≠ '\\' := by
        intro he
        subst he
        simp [isSpecialRe] at hs
      have hsp : stripPre ['\\', '-'] (c :: rest.flatMap escRe) = none := by
        rw [stripPre, if_neg (fun he => hbs he.symm)]
      rw [hsp, ih]
      rfl

/-- Passes 3–4 on the marked text produce stage 0 of the substitution. -/
theorem stage0_eq (toks : List Tok) : ∀ i,
    (markRender i toks).flatMap escHy = stageRender 0 i toks := by
  induction toks with
  | nil => intro i; rfl
  | cons t rest ih =>
    intro i
    rcases t with c | n | _
    · rw [markRender, stageRender, List.flatMap_cons, ih i]
    · rw [markRender, stageRender, List.flatMap_append, sentinel_flatMap_escHy, ih (i + 1)]
      rw [if_neg (by omega)]
    · rw [markRender, stageRender, List.flatMap_cons, ih i]
      rfl

/-- Number of placeholder tokens. -/
def phCount (toks : List Tok) : Nat := (phNames toks).length

/-- `phNames` distributes over append. -/
theorem phNames_append (xs ys : List Tok) :
    phNames (xs ++ ys) = phNames xs ++ phNames ys := by
  rw [phNames, phNames, phNames, List.filterMap_append]

/-- `stageRender` distributes over append, threading the placeholder
index. -/
theorem stageRender_append (k : Nat) (xs ys : List Tok) : ∀ m,
    stageRender k m (xs ++ ys) =
      stageRender k m xs ++ stageRender k (m + phCount xs) ys := by
  induction xs with
  | nil => intro m; simp [stageRender, phCount, phNames]
  | cons t rest ih =>
    intro m
    rcases t with c | n | _
    · rw [List.cons_append, stageRender, stageRender, ih m]
      have : phCount (Tok.lit c :: rest) = phCount rest := by
        simp [phCount, phNames]
      rw [this, List.append_assoc]
    · rw [List.cons_append, stageRender, stageRender, ih (m + 1)]
      have : phCount (Tok.ph n :: rest) = phCount rest + 1 := by
        simp [phCount, phNames]
      rw [this, List.append_assoc]
      have h2 : m + 1 + phCount rest = m + (phCount rest + 1) := by omega
      rw [h2]
    · rw [List.cons_append, stageRender, stageRender, ih m]
      have : phCount (Tok.wc :: rest) = phCount rest := by
        simp [phCount, phNames]
      rw [this]
      rfl

/-- Stages `k` and `k + 1` agree on token runs whose placeholder indices
stay below `k`. -/
theorem stageRender_agree_low (k : Nat) : ∀ (ts : List Tok) (m : Nat),
    m + phCount ts ≤ k → stageRender k m ts = stageRender (k + 1) m ts := by
  intro ts
  induction ts with
  | nil => intro m _; rfl
  | cons t rest ih =>
    intro m hm
    rcases t with c | n | _
    · rw [stageRender, stageRender, ih m (by simpa [phCount, phNames] using hm)]
    · have hcnt : phCount (Tok.ph n :: rest) = phCount rest + 1 := by
        simp [phCount, phNames]
      rw [hcnt] at hm
      rw [stageRender, stageRender, if_pos (by omega), if_pos (by omega),
        ih (m + 1) (by omega)]
    · rw [stageRender, stageRender, ih m (by simpa [phCount, phNames] using hm)]

/-- Stages `k` and `k + 1` agree on token runs whose placeholder indices
stay above `k`. -/
theorem stageRender_agree_high (k : Nat) : ∀ (ts : List Tok) (m : Nat),
    k < m → stageRender k m ts = stageRender (k + 1) m ts := by
  intro ts
  induction ts with
  | nil => intro m _; rfl
  | cons t rest ih =>
    intro m hm
    rcases t with c | n | _
    · rw [stageRender, stageRender, ih m hm]
    · rw [stageRender, stageRender, if_neg (by omega), if_neg (by omega),
        ih (m + 1) (by omega)]
    · rw [stageRender, stageRender, ih m hm]

/-- Group text contains no NUL byte when the name has none. -/
theorem groupText_no_nul {n : Str} (hn : '\x00' ∉ n) : '\x00' ∉ groupText n := by
  intro h
  rw [groupText] at h
  rcases List.mem_append.mp h with h | h
  · rcases List.mem_append.mp h with h | h
    · rcases List.mem_append.mp h with h | h
      · rcases List.mem_append.mp h with h | h
        · revert h; decide
        · exact hn h
      · revert h; decide
    · rw [PLACEHOLDER_PATTERNS] at h
      split at h
      · revert h; decide
      · split at h
        · revert h; decide
        · split at h
          · revert h; decide
          · revert h; decide
  · revert h; decide

/-- Escaped literals contain no NUL byte when the character is not NUL. -/
theorem escHy_no_nul {c : Char} (hc : c ≠ '\x00') : '\x00' ∉ escHy c := by
  intro h
  rw [escHy] at h
  split at h
  · simp at h
  · rw [escRe] at h
    split at h
    · rcases List.mem_cons.mp h with h | h
      · exact absurd h (by decide)
      · simp at h
        exact hc h.symm
    · simp at h
      exact hc h.symm

/-- Escaped literals contain no `\x01` marker when the character is not
`\x01`. -/
theorem escHy_no_soh {c : Char} (hc : c ≠ '\x01') : '\x01' ∉ escHy c := by
  intro h
  rw [escHy] at h
  split at h
  · simp at h
  · rw [escRe] at h
    split at h
    · rcases List.mem_cons.mp h with h | h
      · exact absurd h (by decide)
      · simp at h
        exact hc h.symm
    · simp at h
      exact hc h.symm

/-- Group text contains no `\x01` marker when the name has none. -/
theorem groupText_no_soh {n : Str} (hn : '\x01' ∉ n) : '\x01' ∉ groupText n := by
  intro h
  rw [groupText] at h
  rcases List.mem_append.mp h with h | h
  · rcases List.mem_append.mp h with h | h
    · rcases List.mem_append.mp h with h | h
      · rcases List.mem_append.mp h with h | h
        · revert h; decide
        · exact hn h
      · revert h; decide
    · rw [PLACEHOLDER_PATTERNS] at h
      split at h
      · revert h; decide
      · split at h
        · revert h; decide
        · split at h
          · revert h; decide
          · revert h; decide
  · revert h; decide

/-- A digit character is none of the control or escape characters the
sentinel machinery cares about. -/
theorem digit_ne_aux {d : Char} (h : d.isDigit = true) :
    d ≠ '\x00' ∧ d ≠ '\x01' ∧ d ≠ '\\' ∧ d ≠ '-' := by
  refine ⟨?_, ?_, ?_, ?_⟩ <;> intro he <;> subst he <;> simp at h

/-- A fully substituted prefix (all placeholder indices below `k`)
contains no NUL byte. -/
theorem stageRender_no_nul (k : Nat) : ∀ (ts : List Tok) (m : Nat),
    m + phCount ts ≤ k →
    (∀ c, Tok.lit c ∈ ts → c ≠ '\x00') →
    (∀ n, Tok.ph n ∈ ts → '\x00' ∉ n) →
    '\x00' ∉ stageRender k m ts := by
  intro ts
  induction ts with
  | nil =>
    intro m _ _ _ h
    simp [stageRender] at h
  | cons t rest ih =>
    intro m hm hlit hph h
    rcases t with c | n | _
    · rw [stageRender] at h
      rcases List.mem_append.mp h with h | h
      · exact escHy_no_nul (hlit c (List.mem_cons_self _ _)) h
      · exact ih m (by simpa [phCount, phNames] using hm)
          (fun c hc => hlit c (List.mem_cons_of_mem _ hc))
          (fun n hn => hph n (List.mem_cons_of_mem _ hn)) h
    · have hcnt : phCount (Tok.ph n :: rest) = phCount rest + 1 := by
        simp [phCount, phNames]
      rw [hcnt] at hm
      rw [stageRender, if_pos (by omega)] at h
      rcases List.mem_append.mp h with h | h
      · exact groupText_no_nul (hph n (List.mem_cons_self _ _)) h
      · exact ih (m + 1) (by omega)
          (fun c hc => hlit c (List.mem_cons_of_mem _ hc))
          (fun n hn => hph n (List.mem_cons_of_mem _ hn)) h
    · rw [stageRender] at h
      rcases List.mem_cons.mp h with h | h
      · exact absurd h (by decide)
      · exact ih m (by simpa [phCount, phNames] using hm)
          (fun c hc => hlit c (List.mem_cons_of_mem _ hc))
          (fun n hn => hph n (List.mem_cons_of_mem _ hn)) h

/-- Decomposition of a token list at its `k`-th placeholder. -/
theorem phDecomp : ∀ (toks : List Tok) (k : Nat), k < phCount toks →
    ∃ pre n suf, toks = pre ++ Tok.ph n :: suf ∧ phCount pre = k ∧
      phNames toks = phNames pre ++ n :: phNames suf := by
  intro toks
  induction toks with
  | nil =>
    intro k hk
    simp [phCount, phNames] at hk
  | cons t rest ih =>
    intro k hk
    rcases t with c | n0 | _
    · have hc : phCount (Tok.lit c :: rest) = phCount rest := by
        simp [phCount, phNames]
      rw [hc] at hk
      obtain ⟨pre, n, suf, h1, h2, h3⟩ := ih k hk
      refine ⟨Tok.lit c :: pre, n, suf, by rw [h1]; rfl, ?_, ?_⟩
      · have : phCount (Tok.lit c :: pre) = phCount pre := by
          simp [phCount, phNames]
        rw [this, h2]
      · have h4 : phNames (Tok.lit c :: rest) = phNames rest := by simp [phNames]
        have h5 : phNames (Tok.lit c :: pre) = phNames pre := by simp [phNames]
        rw [h4, h3, h5]
    · rcases k with _ | k'
      · exact ⟨[], n0, rest, rfl, rfl, by simp [phNames]⟩
      · have hc : phCount (Tok.ph n0 :: rest) = phCount rest + 1 := by
          simp [phCount, phNames]
        rw [hc] at hk
        obtain ⟨pre, n, suf, h1, h2, h3⟩ := ih k' (by omega)
        refine ⟨Tok.ph n0 :: pre, n, suf, by rw [h1]; rfl, ?_, ?_⟩
        · have : phCount (Tok.ph n0 :: pre) = phCount pre + 1 := by
            simp [phCount, phNames]
          rw [this, h2]
        · have h4 : phNames (Tok.ph n0 :: rest) = n0 :: phNames rest := by
            simp [phNames]
          have h5 : phNames (Tok.ph n0 :: pre) = n0 :: phNames pre := by
            simp [phNames]
          rw [h4, h3, h5]
          rfl
    · have hc : phCount (Tok.wc :: rest) = phCount rest := by
        simp [phCount, phNames]
      rw [hc] at hk
      obtain ⟨pre, n, suf, h1, h2, h3⟩ := ih k hk
      refine ⟨Tok.wc :: pre, n, suf, by rw [h1]; rfl, ?_, ?_⟩
      · have : phCount (Tok.wc :: pre) = phCount pre := by
          simp [phCount, phNames]
        rw [this, h2]
      · have h4 : phNames (Tok.wc :: rest) = phNames rest := by simp [phNames]
        have h5 : phNames (Tok.wc :: pre) = phNames pre := by simp [phNames]
        rw [h4, h3, h5]

/-- A clean separation scan restarts in the just-after-placeholder state
at every placeholder. -/
theorem sepScan_decomp : ∀ (pre : List Tok) (st : Option Bool) (n : Str)
    (suf : List Tok), sepScan st (pre ++ Tok.ph n :: suf) = true →
    sepScan (some false) suf = true := by
  intro pre
  induction pre with
  | nil =>
    intro st n suf h
    rw [List.nil_append] at h
    rcases st with _ | b
    · exact h
    · rcases b with _ | _
      · exact h
      · exact absurd h (by simp [sepScan])
  | cons t pre' ih =>
    intro st n suf h
    rw [List.cons_append] at h
    rcases t with c | n0 | _
    · rw [sepScan] at h
      split at h
      · exact ih (some true) n suf h
      · exact ih none n suf h
    · rcases st with _ | b
      · exact ih (some false) n suf h
      · rcases b with _ | _
        · exact ih (some false) n suf h
        · exact absurd h (by simp [sepScan])
    · rcases st with _ | b
      · exact ih none n suf h
      · rcases b with _ | _
        · exact ih none n suf h
        · exact ih none n suf h

/-- An occurrence inside an append either starts inside the left part or
lies wholly in the right part. -/
theorem infix_append_cases {p b : Str} : ∀ a : Str, p <:+: (a ++ b) →
    (∃ t, t <:+ a ∧ t ≠ [] ∧ p <+: (t ++ b)) ∨ p <:+: b := by
  intro a
  induction a with
  | nil =>
    intro h
    exact Or.inr (by simpa using h)
  | cons x a' ih =>
    intro h
    rw [List.cons_append] at h
    rcases List.infix_cons_iff.mp h with h | h
    · exact Or.inl ⟨x :: a', List.suffix_refl _, by simp, by simpa using h⟩
    · rcases ih h with ⟨t, h1, h2, h3⟩ | h
      · exact Or.inl ⟨t, h1.trans (List.suffix_cons _ _), h2, h3⟩
      · exact Or.inr h

/-- A suffix of a one-snoc list is empty or itself ends in that element. -/
theorem suffix_snoc_cases {z : Char} : ∀ (u t : Str), t <:+ (u ++ [z]) →
    t = [] ∨ ∃ d, d <:+ u ∧ t = d ++ [z] := by
  intro u
  induction u with
  | nil =>
    intro t h
    rw [List.nil_append] at h
    rcases List.suffix_cons_iff.mp h with h | h
    · exact Or.inr ⟨[], List.nil_suffix, by simpa using h⟩
    · exact Or.inl (List.suffix_nil.mp h)
  | cons x u' ih =>
    intro t h
    rw [List.cons_append] at h
    rcases List.suffix_cons_iff.mp h with h | h
    · exact Or.inr ⟨x :: u', List.suffix_refl _, by rw [h, List.cons_append]⟩
    · rcases ih t h with h | ⟨d, h1, h2⟩
      · exact Or.inl h
      · exact Or.inr ⟨d, h1.trans (List.suffix_cons _ _), h2⟩

/-- NUL-free runs closed by a NUL byte align exactly under prefixing. -/
theorem nul_run_prefix : ∀ (a b x y : Str), '\x00' ∉ a → '\x00' ∉ b →
    (a ++ '\x00' :: x) <+: (b ++ '\x00' :: y) → a = b := by
  intro a
  induction a with
  | nil =>
    intro b x y _ hb h
    rcases b with _ | ⟨c, b'⟩
    · rfl
    · rw [List.nil_append, List.cons_append] at h
      rcases List.cons_prefix_iff.mp h with ⟨h1, _⟩
      exact absurd (List.mem_cons.mpr (Or.inl h1)) hb
  | cons p a' ih =>
    intro b x y ha hb h
    rcases b with _ | ⟨c, b'⟩
    · rw [List.nil_append, List.cons_append] at h
      rcases List.cons_prefix_iff.mp h with ⟨h1, _⟩
      exact absurd (List.mem_cons.mpr (Or.inl h1.symm)) ha
    · rw [List.cons_append, List.cons_append] at h
      rcases List.cons_prefix_iff.mp h with ⟨h1, h2⟩
      subst h1
      rw [ih b' x y (fun hm => ha (List.mem_cons_of_mem _ hm))
        (fun hm => hb (List.mem_cons_of_mem _ hm)) h2]

/-- A stage text can only start with a NUL byte at an unsubstituted
placeholder. -/
theorem stageRender_head_nul {k : Nat} : ∀ (ts : List Tok) (m : Nat) (R : Str),
    (∀ c, Tok.lit c ∈ ts → c ≠ '\x00') →
    stageRender k m ts = '\x00' :: R →
    ∃ n rest, ts = Tok.ph n :: rest ∧ k ≤ m := by
  intro ts
  rcases ts with _ | ⟨t, rest⟩
  · intro m R _ h
    exact absurd h (by simp [stageRender])
  · intro m R hlit h
    rcases t with c | n | _
    · exfalso
      rw [stageRender] at h
      have hc : c ≠ '\x00' := hlit c (List.mem_cons_self _ _)
      rw [escHy] at h
      split at h
      · rw [List.cons_append] at h
        exact absurd (List.head_eq_of_cons_eq h) (by decide)
      · rw [escRe] at h
        split at h
        · rw [List.cons_append] at h
          exact absurd (List.head_eq_of_cons_eq h) (by decide)
        · rw [List.cons_append] at h
          exact hc (List.head_eq_of_cons_eq h)
    · rw [stageRender] at h
      by_cases hm : m < k
      · exfalso
        rw [if_pos hm] at h
        rw [groupText] at h
        rw [List.append_assoc, List.append_assoc, List.append_assoc] at h
        exact absurd (List.head_eq_of_cons_eq h) (by decide)
      · exact ⟨n, rest, rfl, by omega⟩
    · exfalso
      rw [stageRender] at h
      exact absurd (List.head_eq_of_cons_eq h) (by decide)

/-- Inside a stage text, a digit run closed by a NUL byte cannot start
right after a sentinel when the separation scan accepted the tokens. -/
theorem sentinel_run_lem {k : Nat} : ∀ (suf : List Tok) (m : Nat)
    (st : Option Bool), k < m → st.isSome = true →
    (∀ c, Tok.lit c ∈ suf → c ≠ '\x00') →
    sepScan st suf = true →
    ∀ ds : Str, ds ≠ [] → (∀ d ∈ ds, d.isDigit = true) →
    ¬ (ds ++ ['\x00']) <+: stageRender k m suf := by
  intro suf
  induction suf with
  | nil =>
    intro m st _ _ _ _ ds hne _ h
    have h2 : ds ++ ['\x00'] = [] := by
      have h3 : stageRender k m [] = ([] : Str) := rfl
      rw [h3, List.prefix_nil] at h
      exact h
    simp at h2
  | cons t rest ih =>
    intro m st hm hst hlit hscan ds hne hdig h
    obtain ⟨d, ds', hds⟩ := List.exists_cons_of_ne_nil hne
    subst hds
    have hd : d.isDigit = true := hdig d (List.mem_cons_self _ _)
    rcases t with c | n | _
    · rw [stageRender] at h
      by_cases hc : c.isDigit = true
      · rw [escHy_digit hc, List.singleton_append, List.cons_append] at h
        rcases List.cons_prefix_iff.mp h with ⟨_, h2⟩
        have hscan2 : sepScan (some true) rest = true := by
          rw [sepScan] at hscan
          rwa [if_pos (by rw [hc, hst]; decide)] at hscan
        rcases ds' with _ | ⟨d2, ds''⟩
        · rw [List.nil_append] at h2
          obtain ⟨tl, htl⟩ := h2
          rw [List.singleton_append] at htl
          obtain ⟨n', rest', hr, _⟩ := stageRender_head_nul rest m tl
            (fun c2 hc2 => hlit c2 (List.mem_cons_of_mem _ hc2)) htl.symm
          rw [hr] at hscan2
          exact absurd hscan2 (by simp [sepScan])
        · exact ih m (some true) hm rfl
            (fun c2 hc2 => hlit c2 (List.mem_cons_of_mem _ hc2)) hscan2
            (d2 :: ds'') (by simp)
            (fun x hx => hdig x (List.mem_cons_of_mem _ hx)) h2
      · exfalso
        rcases digit_ne_aux hd with ⟨_, _, hd3, hd4⟩
        rw [escHy] at h
        split at h
        · rw [List.cons_append, List.cons_append] at h
          exact hd4 (List.cons_prefix_iff.mp h).1
        · rw [escRe] at h
          split at h
          · rw [List.cons_append, List.cons_append] at h
            exact hd3 (List.cons_prefix_iff.mp h).1
          · rw [List.singleton_append, List.cons_append] at h
            have h1 := (List.cons_prefix_iff.mp h).1
            exact hc (h1 ▸ hd)
    · rcases st with _ | b
      · exact absurd hst (by decide)
      · rcases b with _ | _
        · rw [stageRender, if_neg (by omega)] at h
          rw [sentinel, List.cons_append, List.cons_append] at h
          rcases digit_ne_aux hd with ⟨hd1, _, _, _⟩
          exact hd1 (List.cons_prefix_iff.mp h).1
        · exact absurd hscan (by simp [sepScan])
    · rw [stageRender, List.cons_append] at h
      rcases digit_ne_aux hd with ⟨_, hd2, _, _⟩
      exact hd2 (List.cons_prefix_iff.mp h).1

/-- The sentinel of an already-substituted placeholder occurs nowhere in
the stage text of the tokens that follow it. -/
theorem sentinel_no_occ {k : Nat} : ∀ (suf : List Tok) (m : Nat)
    (st : Option Bool), k < m →
    (∀ c, Tok.lit c ∈ suf → c ≠ '\x00') →
    sepScan st suf = true →
    ¬ sentinel k <:+: stageRender k m suf := by
  intro suf
  induction suf with
  | nil =>
    intro m st _ _ _ h
    have h3 : stageRender k m [] = ([] : Str) := rfl
    rw [h3] at h
    have h2 : sentinel k = [] := List.sublist_nil.mp h.sublist
    simp [sentinel] at h2
  | cons t rest ih =>
    intro m st hm hlit hscan h
    rcases t with c | n | _
    · rw [stageRender] at h
      rcases infix_append_cases (escHy c) h with ⟨t0, ht1, ht2, ht3⟩ | h
      · obtain ⟨x, t0', hx⟩ := List.exists_cons_of_ne_nil ht2
        subst hx
        rw [List.cons_append, sentinel, List.cons_prefix_iff] at ht3
        have hmem : x ∈ escHy c := ht1.subset (List.mem_cons_self _ _)
        exact escHy_no_nul (hlit c (List.mem_cons_self _ _)) (ht3.1.symm ▸ hmem)
      · have hrec : ∃ st2, sepScan st2 rest = true := by
          rw [sepScan] at hscan
          split at hscan
          · exact ⟨some true, hscan⟩
          · exact ⟨none, hscan⟩
        obtain ⟨st2, hscan2⟩ := hrec
        exact ih m st2 hm (fun c2 hc2 => hlit c2 (List.mem_cons_of_mem _ hc2))
          hscan2 h
    · have hscan2 : sepScan (some false) rest = true := by
        rcases st with _ | b
        · exact hscan
        · rcases b with _ | _
          · exact hscan
          · exact absurd hscan (by simp [sepScan])
      rw [stageRender, if_neg (by omega)] at h
      rcases infix_append_cases (sentinel m) h with ⟨t0, ht1, ht2, ht3⟩ | h
      · rw [sentinel] at ht1
        rcases List.suffix_cons_iff.mp ht1 with ht1 | ht1
        · subst ht1
          rw [List.cons_append, sentinel, List.cons_prefix_iff] at ht3
          have ht4 := ht3.2
          rw [List.append_assoc, List.singleton_append] at ht4
          have heq := nul_run_prefix (decRepr k) (decRepr m) [] _
            (decRepr_no_nul k) (decRepr_no_nul m) ht4
          exact absurd (decRepr_inj heq) (by omega)
        · rcases suffix_snoc_cases (decRepr m) t0 ht1 with ht0 | ⟨d, hd1, hd2⟩
          · exact ht2 ht0
          · subst hd2
            rcases d with _ | ⟨d0, d'⟩
            · rw [List.nil_append, List.singleton_append, sentinel,
                List.cons_prefix_iff] at ht3
              exact sentinel_run_lem rest (m + 1) (some false) (by omega) rfl
                (fun c2 hc2 => hlit c2 (List.mem_cons_of_mem _ hc2)) hscan2
                (decRepr k) (decRepr_ne_nil k) (decRepr_digits k) ht3.2
            · rw [List.cons_append, List.cons_append, sentinel,
                List.cons_prefix_iff] at ht3
              have hd0 : d0 ∈ decRepr m := hd1.subset (List.mem_cons_self _ _)
              exact (digit_ne_aux (decRepr_digits m d0 hd0)).1 ht3.1.symm
      · exact ih (m + 1) (some false) (by omega)
          (fun c2 hc2 => hlit c2 (List.mem_cons_of_mem _ hc2)) hscan2 h
    · rw [stageRender] at h
      rcases List.infix_cons_iff.mp h with h | h
      · rw [sentinel, List.cons_prefix_iff] at h
        exact absurd h.1 (by decide)
      · have hscan2 : sepScan none rest = true := by
          rcases st with _ | b
          · exact hscan
          · rcases b with _ | _ <;> exact hscan
        exact ih m none hm (fun c2 hc2 => hlit c2 (List.mem_cons_of_mem _ hc2))
          hscan2 h

/-- One sentinel substitution of pass 5 advances the stage by one. -/
theorem stage_step {toks : List Tok} {k : Nat} {n : Str} {ns : List Str}
    (hd : (phNames toks).drop k = n :: ns)
    (hlit : ∀ c, Tok.lit c ∈ toks → c ≠ '\x00')
    (hph : ∀ nm, Tok.ph nm ∈ toks → '\x00' ∉ nm)
    (hsep : sepScan none toks = true) :
    replaceList (sentinel k) (groupText n) (stageRender k 0 toks) =
      stageRender (k + 1) 0 toks := by
  have hk : k < phCount toks := by
    by_contra hk2
    push_neg at hk2
    rw [List.drop_eq_nil_of_le hk2] at hd
    exact List.noConfusion hd
  obtain ⟨pre, n', suf, h1, h2, h3⟩ := phDecomp toks k hk
  have hlen : (phNames pre).length = k := h2
  rw [h3, ← hlen, List.drop_left] at hd
  have hn : n' = n := (List.cons.injEq _ _ _ _ ▸ hd).1
  subst hn
  rw [h1] at hlit hph hsep ⊢
  have hscan2 : sepScan (some false) suf = true := sepScan_decomp pre none n' suf hsep
  have hlitp : ∀ c, Tok.lit c ∈ pre → c ≠ '\x00' :=
    fun c hc => hlit c (List.mem_append.mpr (Or.inl hc))
  have hphp : ∀ nm, Tok.ph nm ∈ pre → '\x00' ∉ nm :=
    fun nm hnm => hph nm (List.mem_append.mpr (Or.inl hnm))
  have hlits : ∀ c, Tok.lit c ∈ suf → c ≠ '\x00' :=
    fun c hc => hlit c (List.mem_append.mpr (Or.inr (List.mem_cons_of_mem _ hc)))
  have hA : '\x00' ∉ stageRender k 0 pre :=
    stageRender_no_nul k pre 0 (by omega) hlitp hphp
  have hA2 : '\x00' ∉ stageRender (k + 1) 0 pre := by
    rw [← stageRender_agree_low k pre 0 (by omega)]
    exact hA
  rw [stageRender_append k pre (Tok.ph n' :: suf) 0,
    stageRender_append (k + 1) pre (Tok.ph n' :: suf) 0]
  have hz : 0 + phCount pre = k := by omega
  rw [hz]
  rw [stageRender, stageRender, if_neg (lt_irrefl k), if_pos (by omega)]
  rw [show sentinel k = '\x00' :: (decRepr k ++ ['\x00']) from rfl]
  rw [replaceList_skip hA]
  rw [show ('\x00' :: (decRepr k ++ ['\x00'])) = sentinel k from rfl]
  rw [replaceList_hit (by simp [sentinel])]
  rw [replaceList_absent (by simp [sentinel])
    (sentinel_no_occ suf (k + 1) (some false) (by omega) hlits hscan2)]
  rw [stageRender_agree_low k pre 0 (by omega),
    stageRender_agree_high k suf (k + 1) (by omega)]

/-- The whole sentinel-substitution fold of pass 5, from any starting
index. -/
theorem stage_fold {toks : List Tok}
    (hlit : ∀ c, Tok.lit c ∈ toks → c ≠ '\x00')
    (hph : ∀ nm, Tok.ph nm ∈ toks → '\x00' ∉ nm)
    (hsep : sepScan none toks = true) :
    ∀ (names : List Str) (j : Nat), (phNames toks).drop j = names →
    (List.enumFrom j names).foldl
      (fun acc q => replaceList (sentinel q.1) (groupText q.2) acc)
      (stageRender j 0 toks) = stageRender (j + names.length) 0 toks := by
  intro names
  induction names with
  | nil =>
    intro j _
    simp [List.enumFrom]
  | cons n ns ih =>
    intro j hd
    rw [List.enumFrom, List.foldl_cons]
    dsimp only
    rw [stage_step hd hlit hph hsep]
    have hd2 : (phNames toks).drop (j + 1) = ns := by
      have h5 := congrArg (List.drop 1) hd
      rw [List.drop_drop] at h5
      exact h5
    rw [ih (j + 1) hd2]
    have h7 : j + 1 + ns.length = j + (n :: ns).length := by
      rw [List.length_cons]
      omega
    rw [h7]

/-- A pointwise substitution that never fires is the identity. -/
theorem flatMap_subst_id {z : Char} {rep : Str} : ∀ (l : Str), z ∉ l →
    l.flatMap (fun c => if c = z then rep else [c]) = l := by
  intro l hl
  refine flatMap_singleton_id ?_
  intro c hc
  rw [if_neg]
  intro he
  exact hl (he ▸ hc)

/-- Pass 6 (`\x01` → `.*`) turns the fully substituted stage into the
token-by-token rendering. -/
theorem stage_final {N : Nat} : ∀ (toks : List Tok) (i : Nat),
    i + phCount toks ≤ N →
    (∀ c, Tok.lit c ∈ toks → c ≠ '\x01') →
    (∀ n, Tok.ph n ∈ toks → '\x01' ∉ n) →
    (stageRender N i toks).flatMap
      (fun c => if c = '\x01' then ".*".data else [c]) =
      toks.flatMap renderTok := by
  intro toks
  induction toks with
  | nil => intro i _ _ _; rfl
  | cons t rest ih =>
    intro i hi hlit hph
    rcases t with c | n | _
    · rw [stageRender, List.flatMap_append, List.flatMap_cons]
      rw [flatMap_subst_id _ (escHy_no_soh (hlit c (List.mem_cons_self _ _)))]
      rw [ih i (by simpa [phCount, phNames] using hi)
        (fun c2 hc2 => hlit c2 (List.mem_cons_of_mem _ hc2))
        (fun n2 hn2 => hph n2 (List.mem_cons_of_mem _ hn2))]
      rfl
    · have hcnt : phCount (Tok.ph n :: rest) = phCount rest + 1 := by
        simp [phCount, phNames]
      rw [hcnt] at hi
      rw [stageRender, if_pos (by omega), List.flatMap_append, List.flatMap_cons]
      rw [flatMap_subst_id _ (groupText_no_soh (hph n (List.mem_cons_self _ _)))]
      rw [ih (i + 1) (by omega)
        (fun c2 hc2 => hlit c2 (List.mem_cons_of_mem _ hc2))
        (fun n2 hn2 => hph n2 (List.mem_cons_of_mem _ hn2))]
      rfl
    · rw [stageRender, List.flatMap_cons, List.flatMap_cons]
      rw [if_pos rfl]
      rw [ih i (by simpa [phCount, phNames] using hi)
        (fun c2 hc2 => hlit c2 (List.mem_cons_of_mem _ hc2))
        (fun n2 hn2 => hph n2 (List.mem_cons_of_mem _ hn2))]
      rfl

/-- Fusion of the six passes of `pattern_to_regex`: on templates free of
the two internal marker bytes and passing the separation scan, the
compiler renders the token reading of the template, token by token,
between the anchors. -/
theorem pattern_to_regex_renders (t : Str) (h0 : '\x00' ∉ t) (h1 : '\x01' ∉ t)
    (hsep : sepScan none (tokenize t) = true) :
    pattern_to_regex t = '^' :: ((tokenize t).flatMap renderTok ++ ['$']) := by
  have hch := tokenizeF_chars t.length t
  have hlit0 : ∀ c, Tok.lit c ∈ tokenize t → c ≠ '\x00' := by
    intro c hc he
    exact h0 (he ▸ (hch.1 c hc).1)
  have hlit1 : ∀ c, Tok.lit c ∈ tokenize t → c ≠ '\x01' := by
    intro c hc he
    exact h1 (he ▸ (hch.1 c hc).1)
  have hlitstar : ∀ c, Tok.lit c ∈ tokenize t → c ≠ '*' := by
    intro c hc
    exact (hch.1 c hc).2
  have hph0 : ∀ nm, Tok.ph nm ∈ tokenize t → '\x00' ∉ nm := by
    intro nm hnm hmem
    exact h0 ((hch.2 nm hnm).2 '\x00' hmem)
  have hph1 : ∀ nm, Tok.ph nm ∈ tokenize t → '\x01' ∉ nm := by
    intro nm hnm hmem
    exact h1 ((hch.2 nm hnm).2 '\x01' hmem)
  have hp : subPH t = (phNames (tokenize t), sentRender 0 (tokenize t)) :=
    subPHF_eq_tokenizeF t.length t 0 le_rfl
  show '^' :: (replaceList ['\x01'] ".*".data
      ((subPH t).1.enum.foldl
        (fun acc q => replaceList (sentinel q.1) (groupText q.2) acc)
        (replaceList ['\\', '-'] ['-']
          (((subPH t).2.map (fun c => if c = '*' then '\x01' else c)).flatMap
            escRe))) ++ ['$']) = _
  rw [hp]
  dsimp only
  rw [map_star_sentRender (tokenize t) hlitstar 0]
  rw [replaceList_unescape_hyphen (markRender 0 (tokenize t))]
  rw [stage0_eq (tokenize t) 0]
  rw [show (phNames (tokenize t)).enum =
    List.enumFrom 0 (phNames (tokenize t)) from rfl]
  rw [stage_fold hlit0 hph0 hsep (phNames (tokenize t)) 0 rfl]
  rw [Nat.zero_add]
  rw [replaceList_single '\x01' ".*".data]
  rw [stage_final (tokenize t) 0 (by rw [Nat.zero_add]; exact le_rfl) hlit1 hph1]

/-- `breakSep` finds nothing when the separator is absent. -/
theorem breakSep_none {sep : Char} : ∀ s : Str, sep ∉ s → breakSep sep s = none := by
  intro s
  induction s with
  | nil => intro _; rfl
  | cons c rest ih =>
    intro h
    rw [breakSep, if_neg (fun he => h (List.mem_cons.mpr (Or.inl he.symm)))]
    rw [ih (fun hm => h (List.mem_cons_of_mem _ hm))]
    rfl

/-- Without a closing brace, tokenization is the pointwise literal/wildcard
reading: every `$\x7b` stays literal text. -/
theorem tokenizeF_no_close : ∀ (f : Nat) (s : Str), s.length ≤ f → '\x7d' ∉ s →
    tokenizeF f s = s.map (fun c => if c = '*' then Tok.wc else Tok.lit c) := by
  intro f
  induction f with
  | zero =>
    intro s hf _
    have hs : s = [] := List.eq_nil_of_length_eq_zero (by omega)
    subst hs
    rfl
  | succ f' ih =>
    intro s hf hn
    rcases s with _ | ⟨c, rest⟩
    · rfl
    · by_cases hop : c = '$' ∧ ∃ r2, rest = '\x7b' :: r2
      · obtain ⟨hc, r2, hr⟩ := hop
        subst hc
        subst hr
        rw [tokenizeF]
        have hb : breakSep '\x7d' r2 = none := breakSep_none r2
          (fun hm => hn (List.mem_cons_of_mem _ (List.mem_cons_of_mem _ hm)))
        rw [hb]
        have hih := ih ('\x7b' :: r2)
          (by simp only [List.length_cons] at hf ⊢; omega)
          (fun hm => hn (List.mem_cons_of_mem _ hm))
        rw [hih]
        simp only [List.map_cons]
        rw [if_neg (show ¬ ('$' = '*') by decide),
          if_neg (show ¬ ('\x7b' = '*') by decide)]
      · have hcond : ∀ (r2 : List Char), c = '$' → rest = '\x7b' :: r2 → False := by
          intro r2 hc hr
          exact hop ⟨hc, r2, hr⟩
        have hrest := ih rest (by simp only [List.length_cons] at hf; omega)
          (fun hm => hn (List.mem_cons_of_mem _ hm))
        by_cases hcs : c = '*'
        · subst hcs
          rw [tokenizeF.eq_4, hrest, List.map_cons, if_pos rfl]
        · rw [tokenizeF.eq_5 f' c rest hcond (fun h => hcs h), hrest,
            List.map_cons, if_neg hcs]

/-- The separation scan accepts any placeholder-free token list. -/
theorem sepScan_no_ph : ∀ (toks : List Tok) (st : Option Bool),
    (∀ n, Tok.ph n ∉ toks) → sepScan st toks = true := by
  intro toks
  induction toks with
  | nil =>
    intro st _
    rcases st with _ | b
    · decide
    · rcases b with _ | _ <;> decide
  | cons t rest ih =>
    intro st hph
    rcases t with c | n | _
    · rw [sepScan]
      split
      · exact ih (some true) (fun n hn2 => hph n (List.mem_cons_of_mem _ hn2))
      · exact ih none (fun n hn2 => hph n (List.mem_cons_of_mem _ hn2))
    · exact absurd (List.mem_cons_self _ _) (hph n)
    · rcases st with _ | b
      · exact ih none (fun n hn2 => hph n (List.mem_cons_of_mem _ hn2))
      · rcases b with _ | _ <;>
          exact ih none (fun n hn2 => hph n (List.mem_cons_of_mem _ hn2))

/-- Rendering the literal/wildcard reading of a string. -/
theorem tokenlit_render : ∀ s : Str,
    ((s.map (fun c => if c = '*' then Tok.wc else Tok.lit c)).flatMap renderTok) =
      s.flatMap (fun c => if c = '*' then ".*".data else escHy c) := by
  intro s
  induction s with
  | nil => rfl
  | cons c rest ih =>
    rw [List.map_cons, List.flatMap_cons, List.flatMap_cons, ih]
    by_cases hc : c = '*'
    · rw [if_pos hc, if_pos hc]
      rfl
    · rw [if_neg hc, if_neg hc]
      rfl

/-- C4 counterexample: on the template `$\x7bA\x7d$\x7bB\x7d0$\x7bC\x7d`
the sentinel scheme miscarries.  The digit literal `0` between the first
two placeholder sentinels `\x000\x00` and `\x001\x00` lets the sentinel
for placeholder 1 be found at the wrong position, so the output is not an
anchored regex with one named group per placeholder: groups for `B` and
`C` never appear, the name `A` appears twice, and raw NUL bytes leak into
the output. -/
theorem pattern_to_regex_sentinel_cex :
    pattern_to_regex "$\x7bA\x7d$\x7bB\x7d0$\x7bC\x7d".data =
      "^(?P<A>.+?)\x001(?P<A>.+?)2\x00$".data ∧
    ¬ ("(?P<B>".data <:+: pattern_to_regex "$\x7bA\x7d$\x7bB\x7d0$\x7bC\x7d".data) ∧
    ¬ ("(?P<C>".data <:+: pattern_to_regex "$\x7bA\x7d$\x7bB\x7d0$\x7bC\x7d".data) ∧
    '\x00' ∈ pattern_to_regex "$\x7bA\x7d$\x7bB\x7d0$\x7bC\x7d".data := by
  decide

/-- C4 as amended: for every template that contains neither of the two
internal marker bytes (`\x00`, `\x01`) and in which no placeholder is
followed by a digit-literal run leading straight into another placeholder
(the separation-scan condition — without it the numbered-sentinel pass can
rewrite the wrong span), the compiler produces an anchored regex
(`^...$`) that renders the token reading left to right: each placeholder
becomes a named capture group in template order (`Partition`, `Region`,
`Account` mapped to their narrow classes, any other name to `.+?`), each
`*` becomes the unnamed greedy `.*`, and every literal character is
`re.escape`d except the hyphen, which stays unescaped. -/
theorem pattern_to_regex_spec (t : Str) (h0 : '\x00' ∉ t) (h1 : '\x01' ∉ t)
    (hsep : sepScan none (tokenize t) = true) :
    pattern_to_regex t = '^' :: ((tokenize t).flatMap renderTok ++ ['$']) :=
  pattern_to_regex_renders t h0 h1 hsep

/-- Witness for C4 on a concrete template. -/
theorem pattern_to_regex_spec_witness :
    pattern_to_regex "arn:$\x7bPartition\x7d:s3:::$\x7bBucketName\x7d".data =
      '^' :: ((tokenize "arn:$\x7bPartition\x7d:s3:::$\x7bBucketName\x7d".data).flatMap
        renderTok ++ ['$']) ∧
    pattern_to_regex "arn:$\x7bPartition\x7d:s3:::$\x7bBucketName\x7d".data =
      "^arn:(?P<Partition>[\\w-]+):s3:::(?P<BucketName>.+?)$".data :=
  ⟨pattern_to_regex_spec _ (by decide) (by decide) (by decide), by decide⟩

/-- C6 counterexample: a template with an unclosed `$\x7b` does not fail —
no `MalformedTemplateError` (or any other failure path) exists in
`pattern_to_regex`, which is a total function — instead the unclosed
`$\x7b` is silently escaped into the literal regex text `\$\\x7b`. -/
theorem pattern_to_regex_unclosed_cex :
    pattern_to_regex "arn:x:$\x7bA".data = "^arn:x:\\$\\\x7bA$".data := by
  decide

/-- C6 as amended: compilation of a template with no closing brace (so
every `$\x7b` in it is unclosed) succeeds, treating the whole template as
literal text: each character is escaped (hyphen excepted) and `*` still
becomes `.*` — there is no malformed-template error of any kind. -/
theorem pattern_to_regex_unclosed_literal (t : Str) (h0 : '\x00' ∉ t)
    (h1 : '\x01' ∉ t) (hn : '\x7d' ∉ t) :
    pattern_to_regex t =
      '^' :: (t.flatMap (fun c => if c = '*' then ".*".data else escHy c) ++ ['$']) := by
  have htok : tokenize t = t.map (fun c => if c = '*' then Tok.wc else Tok.lit c) :=
    tokenizeF_no_close t.length t le_rfl hn
  have hnoph : ∀ n, Tok.ph n ∉ tokenize t := by
    rw [htok]
    intro n hn2
    obtain ⟨c, _, hc⟩ := List.mem_map.mp hn2
    split at hc
    · exact Tok.noConfusion hc
    · exact Tok.noConfusion hc
  have hsep : sepScan none (tokenize t) = true :=
    sepScan_no_ph (tokenize t) none hnoph
  rw [pattern_to_regex_renders t h0 h1 hsep, htok, tokenlit_render]

/-- Witness for C6 on a concrete unclosed template. -/
theorem pattern_to_regex_unclosed_literal_witness :
    pattern_to_regex "a*$\x7bB".data =
      '^' :: ("a*$\x7bB".data.flatMap
        (fun c => if c = '*' then ".*".data else escHy c) ++ ['$']) ∧
    pattern_to_regex "a*$\x7bB".data = "^a.*\\$\\\x7bB$".data :=
  ⟨pattern_to_regex_unclosed_literal _ (by decide) (by decide) (by decide), by decide⟩

/-- C7 counterexample: a template whose two placeholders share the name
`A` compiles without any error — no `DuplicateCaptureNameError` (or other
failure path) exists — and the output regex declares the capture group
name `A` twice. -/
theorem pattern_to_regex_duplicate_cex :
    pattern_to_regex "$\x7bA\x7d$\x7bA\x7d".data =
      "^(?P<A>.+?)(?P<A>.+?)$".data := by
  decide

/-- C7 as amended: even when the placeholder names of a template are not
pairwise distinct, compilation succeeds (there is no duplicate-name
check anywhere in `pattern_to_regex`) and every placeholder occurrence —
duplicates included — is rendered as its own named capture group in
template order. -/
theorem pattern_to_regex_duplicate_names (t : Str) (h0 : '\x00' ∉ t)
    (h1 : '\x01' ∉ t) (hsep : sepScan none (tokenize t) = true)
    (hdup : ¬ (phNames (tokenize t)).Nodup) :
    pattern_to_regex t = '^' :: ((tokenize t).flatMap renderTok ++ ['$']) :=
  pattern_to_regex_renders t h0 h1 hsep

/-- Witness for C7 on a concrete duplicate-name template. -/
theorem pattern_to_regex_duplicate_names_witness :
    pattern_to_regex "x/$\x7bName\x7d/$\x7bName\x7d".data =
      '^' :: ((tokenize "x/$\x7bName\x7d/$\x7bName\x7d".data).flatMap
        renderTok ++ ['$']) ∧
    pattern_to_regex "x/$\x7bName\x7d/$\x7bName\x7d".data =
      "^x/(?P<Name>.+?)/(?P<Name>.+?)$".data :=
  ⟨pattern_to_regex_duplicate_names _ (by decide) (by decide) (by decide)
    (by decide), by decide⟩

/-- Regex source text of one compiled fragment (used to connect the
abstract `RE` reading of a pattern with the text `pattern_to_regex`
emits). -/
def reSource : RE → Str
  | .lit l => l.flatMap escHy
  | .group n _ => groupText n
  | .star => ".*".data

/-- Does the literal end in a colon? -/
def endsColon (l : Str) : Bool := l.getLast? == some ':'

/-- Classes that can only match colon-free text. -/
def colonFreeCls : GClass → Bool
  | .partitionCls => true
  | .regionCls => true
  | .accountCls => true
  | .anyLazy => false

/-- Does the fragment list begin with a literal that starts with a
colon? -/
def headColonLit : List RE → Bool
  | RE.lit l :: _ => l.headD ' ' == ':'
  | _ => false

/-- Syntactic walk certifying that a compiled pattern puts a `\d\x7b12\x7d`
group exactly at the fifth colon-separated field of anything it matches:
`k` counts the colons of the consumed part, `b` records whether the last
consumed literal ended in a colon. -/
def acctWalk : Nat → Bool → List RE → Bool
  | _, _, [] => false
  | k, b, RE.lit l :: rest =>
    acctWalk (k + l.count ':') (if l.isEmpty then b else endsColon l) rest
  | k, b, RE.group _ cls :: rest =>
    if k = 4 ∧ b = true ∧ cls = GClass.accountCls then headColonLit rest
    else colonFreeCls cls && acctWalk k false rest
  | _, _, RE.star :: _ => false

/-- The account group is aligned with the fifth colon field. -/
def accountShaped (P : List RE) : Bool := acctWalk 0 true P

/-- A digit is not a colon. -/
theorem digit_ne_colon {d : Char} (h : d.isDigit = true) : d ≠ ':' := by
  intro he
  subst he
  simp at h

/-- A word-or-dash character is not a colon. -/
theorem wordDash_ne_colon {c : Char} (h : isWordDash c = true) : c ≠ ':' := by
  intro he
  subst he
  simp [isWordDash] at h

/-- Text accepted by a colon-free class contains no colon. -/
theorem classOK_colon_free {cls : GClass} {p : Str}
    (hf : colonFreeCls cls = true) (hok : classOK cls p = true) : ':' ∉ p := by
  intro hm
  rcases cls with _ | _ | _ | _
  · rw [classOK, Bool.and_eq_true] at hok
    exact wordDash_ne_colon (List.all_eq_true.mp hok.2 ':' hm) rfl
  · rw [classOK] at hok
    exact wordDash_ne_colon (List.all_eq_true.mp hok ':' hm) rfl
  · rw [classOK, Bool.and_eq_true] at hok
    exact digit_ne_colon (List.all_eq_true.mp hok.2 ':' hm) rfl
  · exact absurd hf (by decide)

/-- `breakSep` splits at the first separator. -/
theorem breakSep_exact {sep : Char} : ∀ (a t : Str), sep ∉ a →
    breakSep sep (a ++ sep :: t) = some (a, t) := by
  intro a
  induction a with
  | nil =>
    intro t _
    rw [List.nil_append, breakSep, if_pos rfl]
  | cons c a' ih =>
    intro t h
    rw [List.cons_append, breakSep,
      if_neg (fun he => h (List.mem_cons.mpr (Or.inl he.symm)))]
    rw [ih t (fun hm => h (List.mem_cons_of_mem _ hm))]
    rfl


/-- Splitting a string at its first occurrence of a character. -/
theorem count_pos_split (x : Char) : ∀ (u : Str), 0 < u.count x →
    ∃ f u2, u = f ++ x :: u2 ∧ x ∉ f ∧ u.count x = u2.count x + 1 := by
  intro u
  induction u with
  | nil => intro h; simp at h
  | cons c u' ih =>
    intro h
    by_cases hc : c = x
    · subst hc
      refine ⟨[], u', rfl, by simp, ?_⟩
      rw [List.count_cons]
      simp
    · have h2 : (c :: u').count x = u'.count x := by
        rw [List.count_cons]
        have hb : (c == x) = false := by
          rw [beq_eq_false_iff_ne]
          exact hc
        rw [hb]
        simp
      rw [h2] at h
      obtain ⟨f, u2, h1, h3, h4⟩ := ih h
      refine ⟨c :: f, u2, by rw [h1]; rfl, ?_, ?_⟩
      · intro hm
        rcases List.mem_cons.mp hm with hm | hm
        · exact hc hm.symm
        · exact h3 hm
      · rw [h2, h4]

/-- A list ending in a singleton keeps that shape when peeled from the
left of an interior element. -/
theorem concat_cases : ∀ (f u2 w : Str) (a b : Char),
    f ++ a :: u2 = w ++ [b] → u2 = [] ∨ ∃ w2, u2 = w2 ++ [b] := by
  intro f
  induction f with
  | nil =>
    intro u2 w a b h
    rw [List.nil_append] at h
    rcases w with _ | ⟨c, w'⟩
    · rw [List.nil_append] at h
      injection h with _ h2
      exact Or.inl h2
    · rw [List.cons_append] at h
      injection h with _ h2
      exact Or.inr ⟨w', h2⟩
  | cons y f' ih =>
    intro u2 w a b h
    rw [List.cons_append] at h
    rcases w with _ | ⟨c, w'⟩
    · rw [List.nil_append] at h
      injection h with _ h2
      exact absurd h2 (by simp)
    · rw [List.cons_append] at h
      injection h with _ h2
      exact ih u2 w' a b h2

/-- A string whose first portion holds exactly `j` colons and ends at a
colon splits so that field `j` is the colon-free segment that follows. -/
theorem splitLimit_acct : ∀ (j : Nat) (u acct v : Str), u.count ':' = j →
    (u = [] ∨ ∃ w, u = w ++ [':']) → ':' ∉ acct →
    (splitLimit ':' (j + 1) (u ++ acct ++ ':' :: v)).getD j [] = acct ∧
    (splitLimit ':' (j + 1) (u ++ acct ++ ':' :: v)).length = j + 2 := by
  intro j
  induction j with
  | zero =>
    intro u acct v hc hu ha
    have hu0 : u = [] := by
      rcases hu with hu | ⟨w, hw⟩
      · exact hu
      · exfalso
        rw [hw, List.count_append] at hc
        simp at hc
    subst hu0
    rw [List.nil_append, splitLimit, breakSep_exact acct v ha]
    exact ⟨rfl, rfl⟩
  | succ j' ih =>
    intro u acct v hc hu ha
    obtain ⟨f, u2, hsplit, hf, hcnt⟩ := count_pos_split ':' u (by omega)
    have hc2 : u2.count ':' = j' := by
      rw [hc] at hcnt
      omega
    have hu2 : u2 = [] ∨ ∃ w2, u2 = w2 ++ [':'] := by
      rcases hu with hu | ⟨w, hw⟩
      · rw [hu] at hsplit
        exact absurd hsplit.symm (by simp)
      · exact concat_cases f u2 w ':' ':' (hsplit.symm.trans hw)
    have hs : u ++ acct ++ ':' :: v = f ++ ':' :: (u2 ++ acct ++ ':' :: v) := by
      rw [hsplit]
      simp
    rw [hs, splitLimit, breakSep_exact f (u2 ++ acct ++ ':' :: v) hf]
    obtain ⟨ih1, ih2⟩ := ih u2 acct v hc2 hu2 ha
    constructor
    · rw [List.getD_cons_succ]
      exact ih1
    · rw [List.length_cons, ih2]

/-- A successful linear scan exhibits a witnessing element. -/
theorem findSome?_some_ex {α β : Type} {l : List α} {f : α → Option β} {b : β} :
    l.findSome? f = some b → ∃ a, a ∈ l ∧ f a = some b := by
  induction l with
  | nil => intro h; exact absurd h (by simp)
  | cons x l' ih =>
    intro h
    rcases hfx : f x with _ | y
    · rw [List.findSome?_cons, hfx] at h
      obtain ⟨a, ha, hfa⟩ := ih h
      exact ⟨a, List.mem_cons_of_mem _ ha, hfa⟩
    · rw [List.findSome?_cons, hfx] at h
      simp at h
      exact ⟨x, List.mem_cons_self _ _, by rw [hfx, h]⟩

/-- A list whose last element is `c` is a concatenation ending in `[c]`. -/
theorem exists_concat_of_getLast? : ∀ (l : Str) (c : Char),
    l.getLast? = some c → ∃ w, l = w ++ [c] := by
  intro l
  induction l with
  | nil => intro c h; exact absurd h (by simp)
  | cons a l' ih =>
    intro c h
    rcases hl : l' with _ | ⟨d, l''⟩
    · subst hl
      have ha : a = c := by
        have h0 : ([a] : Str).getLast? = some a := rfl
        rw [h0] at h
        exact Option.some.inj h
      exact ⟨[], by rw [ha]; rfl⟩
    · subst hl
      have h2 : (a :: d :: l'').getLast? = (d :: l'').getLast? := rfl
      obtain ⟨w, hw⟩ := ih c (h2.symm.trans h)
      exact ⟨a :: w, by rw [List.cons_append, ← hw]⟩

/-- `endsColon` certifies the concatenation shape. -/
theorem ends_colon_concat (l : Str) (he : endsColon l = true) :
    ∃ w, l = w ++ [':'] := by
  rw [endsColon, beq_iff_eq] at he
  exact exists_concat_of_getLast? l ':' he

/-- Soundness of the account walk: whenever a certified pattern matches,
the input decomposes into a four-colon prefix, a twelve-digit colon-free
account segment, a closing colon and a tail. -/
theorem acct_match_sound : ∀ (P : List RE) (s : Str) (caps : List (Str × Str))
    (k : Nat) (b : Bool),
    acctWalk k b P = true →
    matchRE P s = some caps →
    ∃ u acct v, s = u ++ acct ++ ':' :: v ∧
      u.count ':' + k = 4 ∧
      (u = [] → b = true) ∧
      (u ≠ [] → ∃ w, u = w ++ [':']) ∧
      acct.length = 12 ∧ acct.all (·.isDigit) = true ∧ ':' ∉ acct := by
  intro P
  induction P with
  | nil =>
    intro s caps k b hw _
    exact absurd hw (by simp [acctWalk])
  | cons r rest ih =>
    intro s caps k b hw hm
    rcases r with ⟨l⟩ | ⟨nm, cls⟩ | _
    · rw [matchRE] at hm
      rcases hsp : stripPre l s with _ | rem
      · rw [hsp] at hm
        exact absurd hm (by simp)
      · rw [hsp] at hm
        have hseq : s = l ++ rem := stripPre_eq_some_iff.mp hsp
        rw [acctWalk] at hw
        obtain ⟨u2, acct, v, h1, h2, h3, h4, h5, h6, h7⟩ :=
          ih rem caps _ _ hw hm
        refine ⟨l ++ u2, acct, v, ?_, ?_, ?_, ?_, h5, h6, h7⟩
        · rw [hseq, h1]
          simp [List.append_assoc]
        · rw [List.count_append]
          omega
        · intro hlu
          have hl0 := List.append_eq_nil.mp hlu
          have hb2 := h3 hl0.2
          rw [hl0.1] at hb2
          simpa using hb2
        · intro hlu
          by_cases hu2 : u2 = []
          · have hb2 := h3 hu2
            subst hu2
            rw [List.append_nil] at hlu ⊢
            have hlne : l.isEmpty = false := by
              rcases l with _ | _
              · exact absurd rfl hlu
              · rfl
            rw [hlne] at hb2
            simp at hb2
            obtain ⟨w, hwl⟩ := ends_colon_concat l hb2
            exact ⟨w, hwl⟩
          · obtain ⟨w, hwu⟩ := h4 hu2
            refine ⟨l ++ w, ?_⟩
            rw [hwu]
            simp [List.append_assoc]
    · rw [matchRE] at hm
      rw [acctWalk] at hw
      by_cases hcond : k = 4 ∧ b = true ∧ cls = GClass.accountCls
      · rw [if_pos hcond] at hw
        obtain ⟨hk4, hb, hcls⟩ := hcond
        subst hcls
        rw [show candLens GClass.accountCls s = [12] from rfl] at hm
        obtain ⟨len, hmem, hf⟩ := findSome?_some_ex hm
        have hlen12 : len = 12 := by simpa using hmem
        subst hlen12
        by_cases hok : classOK GClass.accountCls (s.take 12) = true
        · rw [if_pos hok] at hf
          rw [Option.map_eq_some'] at hf
          obtain ⟨cs, hcs, _⟩ := hf
          rcases rest with _ | ⟨r1, rest'⟩
          · exact absurd hw (by simp [headColonLit])
          rcases r1 with ⟨l1⟩ | ⟨nm2, cls2⟩ | _
          rotate_left
          · exact absurd hw (by simp [headColonLit])
          · exact absurd hw (by simp [headColonLit])
          rw [headColonLit, beq_iff_eq] at hw
          rcases hl1 : l1 with _ | ⟨c1, l1'⟩
          · rw [hl1] at hw
            simp at hw
          · rw [hl1] at hw hcs
            have hc1 : c1 = ':' := by simpa using hw
            subst hc1
            rw [matchRE] at hcs
            rcases hsp2 : stripPre (':' :: l1') (s.drop 12) with _ | rem2
            · rw [hsp2] at hcs
              exact absurd hcs (by simp)
            · have hdec : s.drop 12 = ':' :: (l1' ++ rem2) := by
                have h9 := stripPre_eq_some_iff.mp hsp2
                rw [h9, List.cons_append]
              have hok2 := hok
              rw [classOK, Bool.and_eq_true] at hok2
              have hlen12 : (s.take 12).length = 12 := of_decide_eq_true hok2.1
              have hdig : (s.take 12).all (·.isDigit) = true := hok2.2
              refine ⟨[], s.take 12, l1' ++ rem2, ?_, ?_, fun _ => hb, ?_, hlen12,
                hdig, classOK_colon_free (by decide) hok⟩
              · rw [List.nil_append, ← hdec, List.take_append_drop]
              · rw [hk4]
                rfl
              · intro hne
                exact absurd rfl hne
        · rw [if_neg hok] at hf
          exact absurd hf (by simp)
      · rw [if_neg hcond] at hw
        rw [Bool.and_eq_true] at hw
        obtain ⟨hcf, hwrest⟩ := hw
        obtain ⟨len, hmem, hf⟩ := findSome?_some_ex hm
        by_cases hok : classOK cls (s.take len) = true
        · rw [if_pos hok] at hf
          rw [Option.map_eq_some'] at hf
          obtain ⟨cs, hcs, _⟩ := hf
          obtain ⟨u2, acct, v, h1, h2, h3, h4, h5, h6, h7⟩ :=
            ih (s.drop len) cs k false hwrest hcs
          have hu2ne : u2 ≠ [] := by
            intro he
            exact absurd (h3 he) (by simp)
          obtain ⟨w, hwu⟩ := h4 hu2ne
          have hclf : ':' ∉ s.take len := classOK_colon_free hcf hok
          refine ⟨s.take len ++ u2, acct, v, ?_, ?_, ?_, ?_, h5, h6, h7⟩
          · have h8 : s = s.take len ++ s.drop len :=
              (List.take_append_drop len s).symm
            rw [h1] at h8
            simpa [List.append_assoc] using h8
          · rw [List.count_append, List.count_eq_zero_of_not_mem hclf]
            omega
          · intro he
            exact absurd (List.append_eq_nil.mp he).2 hu2ne
          · intro _
            refine ⟨s.take len ++ w, ?_⟩
            rw [hwu]
            simp [List.append_assoc]
        · rw [if_neg hok] at hf
          exact absurd hf (by simp)
    · exact absurd hw (by simp [acctWalk])

/-- Registry used by the C10 counterexample: one `svc` pattern compiled
from the template `arn:aws:svc:::$\x7bAccount\x7d`, whose `Account`
placeholder sits in the resource position, not the account field. -/
def c10reg : Registry :=
  [("svc".data,
    [([RE.lit "arn:aws:svc:::".data, RE.group "Account".data GClass.accountCls],
      ["thing".data])])]

/-- C10 counterexample: the `Account` placeholder does constrain its
capture to `\d\x7b12\x7d`, but nothing aligns that capture with the ARN's
account field.  The pattern here comes from template
`arn:aws:svc:::$\x7bAccount\x7d` (first conjunct connects the abstract
pattern to the exact text `pattern_to_regex` emits); the identifier
`arn:aws:svc:::123456789012` is well-formed with a known service and an
EMPTY account field (not 12 digits), yet the matcher returns a successful
ARN — the 12-digit run in resource position feeds the Account group. -/
theorem arnmatch_account_cex :
    pattern_to_regex "arn:aws:svc:::$\x7bAccount\x7d".data =
      '^' :: (([RE.lit "arn:aws:svc:::".data,
        RE.group "Account".data GClass.accountCls].flatMap reSource) ++ ['$']) ∧
    (splitLimit ':' 5 "arn:aws:svc:::123456789012".data).length = 6 ∧
    (splitLimit ':' 5 "arn:aws:svc:::123456789012".data).getD 4 [] = [] ∧
    arnmatch c10reg "arn:aws:svc:::123456789012".data =
      .ok { aws_partition := "aws".data, aws_service := "svc".data,
            aws_region := [], aws_account := [],
            resource_type := "thing".data, resource_types := ["thing".data],
            attributes := [("Account".data, "123456789012".data)] } :=
  ⟨by decide, by decide, by decide, by rfl⟩

/-- C10 as amended: the compiled `Account` group is `\d\x7b12\x7d`, and
for patterns in which that group is aligned with the fifth colon field —
it follows a consumed prefix of literals and colon-free-class groups
holding exactly four colons, the last literal before it ending in `:`,
and a `:`-initial literal follows it (`accountShaped`) — the screen from
the claim holds: a well-formed identifier of a known service whose
account field is not exactly 12 ASCII digits matches none of that
service's patterns, and the matcher reports that no pattern matched.
Without the alignment condition the consequence fails (see the
counterexample, where `$\x7bAccount\x7d` sits in resource position). -/
theorem arnmatch_account_screen (reg : Registry) (arn : Str)
    (pats : List (List RE × List Str))
    (hlen : (splitLimit ':' 5 arn).length = 6)
    (hhead : (splitLimit ':' 5 arn).headD [] = "arn".data)
    (hsvc : lookupService reg ((splitLimit ':' 5 arn).getD 2 []) = some pats)
    (hall : ∀ p ∈ pats, accountShaped p.1 = true)
    (hacct : ¬ (((splitLimit ':' 5 arn).getD 4 []).length = 12 ∧
      ((splitLimit ':' 5 arn).getD 4 []).all (·.isDigit) = true)) :
    arnmatch reg arn = .error (noMatchMsg arn) := by
  simp only [arnmatch]
  rw [if_pos ⟨hlen, hhead⟩, hsvc]
  dsimp only
  have hn : pats.findSome?
      (fun p => (matchRE p.1 arn).map (fun caps => (p, caps))) = none := by
    rw [List.findSome?_eq_none_iff]
    intro p hp
    rcases hmm : matchRE p.1 arn with _ | caps
    · rfl
    · exfalso
      obtain ⟨u, acct, v, h1, h2, h3, h4, h5, h6, h7⟩ :=
        acct_match_sound p.1 arn caps 0 true (hall p hp) hmm
      have hcu : u.count ':' = 4 := by omega
      have hu : u = [] ∨ ∃ w, u = w ++ [':'] := by
        by_cases he : u = []
        · exact Or.inl he
        · exact Or.inr (h4 he)
      have hsp := splitLimit_acct 4 u acct v hcu hu h7
      have h45 : (4 : Nat) + 1 = 5 := rfl
      rw [h45, ← h1] at hsp
      exact hacct ⟨by rw [hsp.1]; exact h5, by rw [hsp.1]; exact h6⟩
  rw [hn]

/-- Registry used by the C10 witness: one `svc` pattern whose `Account`
group is aligned with the fifth colon field. -/
def c10wreg : Registry :=
  [("svc".data,
    [([RE.lit "arn:".data, RE.group "Partition".data GClass.partitionCls,
       RE.lit ":svc:".data, RE.group "Region".data GClass.regionCls,
       RE.lit ":".data, RE.group "Account".data GClass.accountCls,
       RE.lit ":x".data],
      ["x".data])])]

/-- Witness for C10: a well-formed `svc` identifier whose account field is
`123` (not 12 digits) is rejected with the no-pattern-matched error. -/
theorem arnmatch_account_screen_witness :
    arnmatch c10wreg "arn:aws:svc:east:123:x".data =
      .error (noMatchMsg "arn:aws:svc:east:123:x".data) :=
  arnmatch_account_screen c10wreg "arn:aws:svc:east:123:x".data
    [([RE.lit "arn:".data, RE.group "Partition".data GClass.partitionCls,
       RE.lit ":svc:".data, RE.group "Region".data GClass.regionCls,
       RE.lit ":".data, RE.group "Account".data GClass.accountCls,
       RE.lit ":x".data],
      ["x".data])]
    (by decide) (by decide) (by decide) (by decide) (by decide)
